import Mathlib

/-!
# A shallow embedding of the wTrie engine (wtrie.h)

The C code is a hand-rolled pointer structure: each `struct wTrie` node holds a
wide character `wc`, a `sibling` pointer, a `child` pointer, a terminal flag
`term` and a `meta` pointer.  We model the process memory as a finite store
mapping addresses (`Nat`) to node records; `NULL` is `Option.none`.  Freed
memory is removed from the store, so dereferencing a freed or wild pointer has
no defined result: every operation returns an `Option`, with `none` standing
for undefined behaviour (use-after-free, unbounded pointer chasing) and
`some r` for a defined C execution returning `r`.

`errno` is only ever written (never read) by the trie operations, so each
operation also returns the last value written to `errno` during the call, if
any (`EW`): `none` means `errno` was left untouched.

Recursions that follow pointers (sibling scans, the consistency check, purge,
and the leaf-hunting loop) are given explicit fuel; exhausting the fuel yields
`none` (the C code would be chasing a cyclic or wild chain).  Recursions that
follow the input string are structural.

Strings: a C wide string is the character sequence before the first `L'\0'`.
We model the sequence as a `List Nat` and reads `*(wstring + i)` as
`cAt ws i`, which yields `0` at or past the end of the list, exactly the
terminator the C code would read there.
-/

/-- The error codes of wtrerrno.h that the trie operations assign to errno. -/
inductive WErr where
  | nullPointer   -- E_WTRIE_NULLPOINTER
  | orphan        -- E_WTRIE_ORPHAN
  | emptyWord     -- E_WTRIE_EMPTYWORD
  | dupChild      -- E_WTRIE_DUPCHILD
  | noSuchNode    -- E_WTRIE_NOSUCHNODE
  | noSuchWord    -- I_WTRIE_NOSUCHWORD
  | corrupt       -- E_WTRIE_CORRUPT
  | spawnFailed   -- E_WTRIE_SPAWNFAILED
  | metaNotSet    -- W_WTRIE_METANOTSET
deriving DecidableEq, Repr

/-- An errno write event: `some e` means the call last wrote `e` to errno. -/
abbrev EW := Option WErr

/-- Sequencing of errno writes: the later write wins. -/
def ewSeq (e1 e2 : EW) : EW :=
  match e2 with
  | some x => some x
  | none => e1

/-- `struct wTrie`: wc, sibling pointer, child pointer, terminal flag, meta
pointer.  Pointers are `Option Nat` (`none` = NULL); the meta pointer is kept
abstract as an optional token. -/
structure WNode where
  wc : Nat
  sibling : Option Nat
  child : Option Nat
  term : Bool
  meta : Option Nat
deriving DecidableEq, Repr

/-- The allocated part of process memory: an association list from addresses
to nodes, plus the next fresh address handed out by the allocator. -/
structure Heap where
  store : List (Nat × WNode)
  next : Nat
deriving DecidableEq, Repr

/-- Association-list lookup for the store. -/
def storeGet : List (Nat × WNode) → Nat → Option WNode
  | [], _ => none
  | (k, v) :: es, a => if a = k then some v else storeGet es a

/-- Overwrite every entry of an address in the store. -/
def storeSet : List (Nat × WNode) → Nat → WNode → List (Nat × WNode)
  | [], _, _ => []
  | (k, v) :: es, a, nd =>
    if k = a then (a, nd) :: storeSet es a nd else (k, v) :: storeSet es a nd

/-- Drop every entry of an address from the store. -/
def storeFree : List (Nat × WNode) → Nat → List (Nat × WNode)
  | [], _ => []
  | (k, v) :: es, a =>
    if k = a then storeFree es a else (k, v) :: storeFree es a

/-- Dereference an address; `none` when the address is not allocated. -/
def Heap.get (h : Heap) (a : Nat) : Option WNode :=
  storeGet h.store a

/-- Overwrite the node stored at an (allocated) address. -/
def Heap.set (h : Heap) (a : Nat) (nd : WNode) : Heap :=
  ⟨storeSet h.store a nd, h.next⟩

/-- `calloc` a fresh node; returns the new heap and the fresh address. -/
def Heap.alloc (h : Heap) (nd : WNode) : Heap × Nat :=
  (⟨(h.next, nd) :: h.store, h.next + 1⟩, h.next)

/-- `free` an address (the C code first poisons the bytes with 0xC3; freed
memory is simply gone from the store). -/
def Heap.free (h : Heap) (a : Nat) : Heap :=
  ⟨storeFree h.store a, h.next⟩

/-- A well-formed heap: every allocated address is below the allocator's
next fresh address. -/
def wfH (h : Heap) : Prop :=
  ∀ a nd, h.get a = some nd → a < h.next

/-- `*(wstring + i)` for the modelled string: characters of `ws` in range,
the terminating `L'\0'` (that is, `0`) at or past the end. -/
def cAt (ws : List Nat) (i : Nat) : Nat :=
  ws.getD i 0

/-- `wTrie_rOK`, the recursive consistency check.
C: `return wtr && (wtr->sibling ? wTrie_rOK(wtr->sibling) : 1)
              && (wtr->child ? wTrie_rOK(wtr->child) : 1);`
A NULL argument returns 0 (false); `&&` short-circuits, so a failing sibling
check suppresses the child check. -/
def wTrie_rOK (h : Heap) (p : Option Nat) (fuel : Nat) : Option Bool :=
  match p with
  | none => some false
  | some a =>
    match fuel with
    | 0 => none
    | f + 1 =>
      match h.get a with
      | none => none
      | some nd =>
        match (match nd.sibling with
               | none => some true
               | some s => wTrie_rOK h (some s) f) with
        | none => none
        | some false => some false
        | some true =>
          match nd.child with
          | none => some true
          | some c => wTrie_rOK h (some c) f

/-- The scanning loop of `wTrie_child`.  `headPtr` is the (unchanging) value
of `parent->child` that the loop body compares against; `lsib` is the local
`lsib` variable.  Returns the found child (if any) and the value written
through `lsibling_p` (`none` if no write happened, which is exactly when no
child matched).
C loop body: first the match test (recording `lsib` on a match), then
`if (child != parent->child) lsib = child;`. -/
def wTrie_childLoop (h : Heap) (headPtr : Option Nat) (cur : Option Nat)
    (wch : Nat) (lsib : Option Nat) (fuel : Nat) :
    Option (Option Nat × Option (Option Nat)) :=
  match fuel with
  | 0 => none
  | f + 1 =>
    match cur with
    | none => some (none, none)
    | some c =>
      match h.get c with
      | none => none
      | some nd =>
        if nd.wc = wch then some (some c, some lsib)
        else
          wTrie_childLoop h headPtr nd.sibling wch
            (if some c = headPtr then lsib else some c) f

/-- `wTrie_child(parent, wch, lsibling_p)`.  Returns the found child, the
value written through `lsibling_p` (if a match was found — the caller only
sees it when it actually supplied an address), and the errno write.
A NULL parent sets `E_WTRIE_ORPHAN` and returns NULL. -/
def wTrie_child (h : Heap) (parent : Option Nat) (wch : Nat) (fuel : Nat) :
    Option (Option Nat × Option (Option Nat) × EW) :=
  match parent with
  | none => some (none, none, some WErr.orphan)
  | some p =>
    match h.get p with
    | none => none
    | some pn =>
      match wTrie_childLoop h pn.child pn.child wch none fuel with
      | none => none
      | some (res, w) => some (res, w, none)

/-- The found-child projection of `wTrie_child` (for stating walks). -/
def childOf (h : Heap) (r : Nat) (wch : Nat) (fuel : Nat) : Option Nat :=
  match wTrie_child h (some r) wch fuel with
  | none => none
  | some (res, _, _) => res

/-- The meta slot produced by `wTrie_init`: a `meta_sz > 0` request
zero-allocates a buffer (modelled as the token `some 0`), setting
`W_WTRIE_METANOTSET` when a ready-made meta was also supplied; otherwise the
supplied meta is taken over. -/
def initMeta (meta : Option Nat) (meta_sz : Nat) : Option Nat × EW :=
  if meta_sz > 0 then (some 0, if meta.isSome then some WErr.metaNotSet else none)
  else (meta, none)

/-- `wTrie_hasmultichild`: true iff the node's first child has a sibling.
NULL input sets `E_WTRIE_NULLPOINTER` and returns false. -/
def wTrie_hasmultichild (h : Heap) (wtr : Option Nat) : Option (Bool × EW) :=
  match wtr with
  | none => some (false, some WErr.nullPointer)
  | some a =>
    match h.get a with
    | none => none
    | some nd =>
      match nd.child with
      | none => some (false, none)
      | some c =>
        match h.get c with
        | none => none
        | some cn => some (cn.sibling.isSome, none)

/-- The multi-child projection (for stating the leaf-walk facts). -/
def multiOf (h : Heap) (a : Nat) : Option Bool :=
  match wTrie_hasmultichild h (some a) with
  | none => none
  | some (b, _) => some b

/-- `wTrie_spawn(strict, parent, wch, term, meta, meta_sz)`.
Find-or-create a child of `parent` carrying `wch`.  When absent: calloc a
newborn, `wTrie_init` it, link the old child list behind it and make it the
new head.  When present: with `strict`, set `E_WTRIE_DUPCHILD` and return
NULL without mutating; otherwise overwrite the found child's `term` and
`meta` in place (note: directly with the supplied `meta`, ignoring
`meta_sz`) and return it. -/
def wTrie_spawn (h : Heap) (strict : Bool) (parent : Option Nat) (wch : Nat)
    (term : Bool) (meta : Option Nat) (meta_sz : Nat) (fuel : Nat) :
    Option (Heap × Option Nat × EW) :=
  match parent with
  | none => some (h, none, some WErr.orphan)
  | some p =>
    match wTrie_child h parent wch fuel with
    | none => none
    | some (found, _, _) =>
      match found with
      | none =>
        match h.get p with
        | none => none
        | some pn =>
          let im := initMeta meta meta_sz
          let al := Heap.alloc h ⟨wch, pn.child, none, term, im.1⟩
          some ((al.1).set p ⟨pn.wc, pn.sibling, some al.2, pn.term, pn.meta⟩,
                some al.2, im.2)
      | some c =>
        if strict then some (h, none, some WErr.dupChild)
        else
          match h.get c with
          | none => none
          | some cn =>
            some (h.set c ⟨cn.wc, cn.sibling, cn.child, term, meta⟩, some c, none)

/-- `wTrie_addword`, instrumented with the list of nodes its spawns returned
(in walk order); the projection `wTrie_addword` below drops the trace.
C: NULL root fails with `E_WTRIE_NULLPOINTER`, an empty string with
`E_WTRIE_EMPTYWORD`; every character but the last is spawned non-strict and
non-terminal with no meta, the last non-strict and terminal. -/
def wTrie_addwordT (h : Heap) (wtr : Option Nat) (ws : List Nat) (fuel : Nat) :
    Option (Heap × Option Nat × EW × List Nat) :=
  match wtr with
  | none => some (h, none, some WErr.nullPointer, [])
  | some _ =>
    match ws with
    | [] => some (h, none, some WErr.emptyWord, [])
    | c :: rest =>
      if c = 0 then some (h, none, some WErr.emptyWord, [])
      else if cAt rest 0 ≠ 0 then
        match wTrie_spawn h false wtr c false none 0 fuel with
        | none => none
        | some (h1, nw, e1) =>
          match wTrie_addwordT h1 nw rest fuel with
          | none => none
          | some (h2, res, e2, tr) =>
            some (h2, res, ewSeq e1 e2,
                  (match nw with | some a => a :: tr | none => tr))
      else
        match wTrie_spawn h false wtr c true none 0 fuel with
        | none => none
        | some (h1, res, e1) =>
          some (h1, res, e1, (match res with | some a => [a] | none => []))

/-- `wTrie_addword(wtr, wstring)` proper. -/
def wTrie_addword (h : Heap) (wtr : Option Nat) (ws : List Nat) (fuel : Nat) :
    Option (Heap × Option Nat × EW) :=
  match wTrie_addwordT h wtr ws fuel with
  | none => none
  | some (h1, res, e, _) => some (h1, res, e)

/-- `wTrie_findword(wtr, wstring)`: walks children by successive characters;
succeeds only when the last character's node has its terminal flag set,
otherwise sets `I_WTRIE_NOSUCHWORD` and returns NULL. -/
def wTrie_findword (h : Heap) (wtr : Option Nat) (ws : List Nat) (fuel : Nat) :
    Option (Option Nat × EW) :=
  match wtr with
  | none => some (none, some WErr.nullPointer)
  | some _ =>
    match ws with
    | [] => some (none, some WErr.emptyWord)
    | c :: rest =>
      if c = 0 then some (none, some WErr.emptyWord)
      else
        match wTrie_child h wtr c fuel with
        | none => none
        | some (found, _, e1) =>
          match found with
          | none => some (none, ewSeq e1 (some WErr.noSuchWord))
          | some ca =>
            match h.get ca with
            | none => none
            | some cn =>
              if cn.term = true ∧ cAt rest 0 = 0 then some (some ca, e1)
              else if cAt rest 0 ≠ 0 then
                match wTrie_findword h (some ca) rest fuel with
                | none => none
                | some (r, e2) => some (r, ewSeq e1 e2)
              else some (none, ewSeq e1 (some WErr.noSuchWord))

/-- `wTrie_findword_rel(wtr, wstring, parent_p, lsibling_p)`.
Returns (result, write through `parent_p`, write through `lsibling_p`,
errno write); a write is `some v` when the C code stored `v` through the
corresponding supplied address, `none` when the address was never written.
The C code passes `lsibling_p` to `wTrie_child` only when the current
character is the last one; on a word of length two it routes the recursive
call through the locals `mbparent` (initialized to the found child) and
`mblsibling` (initialized to NULL) and copies them out on success. -/
def wTrie_findword_rel (h : Heap) (wtr : Option Nat) (ws : List Nat)
    (wantParent wantLsib : Bool) (fuel : Nat) :
    Option (Option Nat × Option (Option Nat) × Option (Option Nat) × EW) :=
  match wtr with
  | none => some (none, none, none, some WErr.nullPointer)
  | some _ =>
    match ws with
    | [] => some (none, none, none, some WErr.emptyWord)
    | c :: rest =>
      if c = 0 then some (none, none, none, some WErr.emptyWord)
      else
        match wTrie_child h wtr c fuel with
        | none => none
        | some (found, w, e1) =>
          -- the lsib write reaches the caller only if the caller's address
          -- was passed down, i.e. the current character is the last one
          let wOut : Option (Option Nat) :=
            if cAt rest 0 = 0 ∧ wantLsib then w else none
          match found with
          | none => some (none, none, wOut, ewSeq e1 (some WErr.noSuchWord))
          | some ca =>
            match h.get ca with
            | none => none
            | some cn =>
              if cn.term = true ∧ cAt rest 0 = 0 then
                some (some ca, none, wOut, e1)
              else if cAt rest 0 ≠ 0 then
                if cAt rest 1 = 0 then
                  match wTrie_findword_rel h (some ca) rest true true fuel with
                  | none => none
                  | some (mb, mbParentW, mbLsibW, e2) =>
                    match mb with
                    | some mba =>
                      some (some mba,
                            (if wantParent then
                               some (mbParentW.getD (some ca)) else none),
                            (if wantLsib then
                               some (mbLsibW.getD none) else none),
                            ewSeq e1 e2)
                    | none =>
                      some (none, none, none,
                            ewSeq (ewSeq e1 e2) (some WErr.noSuchWord))
                else
                  match wTrie_findword_rel h (some ca) rest wantParent wantLsib fuel with
                  | none => none
                  | some (r, pw, lw, e2) => some (r, pw, lw, ewSeq e1 e2)
              else some (none, none, wOut, ewSeq e1 (some WErr.noSuchWord))

/-- The do-while loop of `wTrie_leaf`.  Each iteration: set `fin` if the
current node is the end node, fetch the next node
(`child = wTrie_child(node, *(wstring + i++), NULL)`), then either update the
`leaf`/`parent` candidates from the branching test on `child` (when not
final) or discard them when the end node still has children (when final);
finally step `node = child` and repeat until `fin`. -/
def leafLoop (h : Heap) (ws : List Nat) (endn : Option Nat) (node : Option Nat)
    (i : Nat) (leaf parent : Option Nat) (fuel : Nat) :
    Option (Option Nat × Option Nat × EW) :=
  match fuel with
  | 0 => none
  | f + 1 =>
    match wTrie_child h node (cAt ws i) f with
    | none => none
    | some (child, _, e1) =>
      if node = endn then
        match node with
        | none => none
        | some a =>
          match h.get a with
          | none => none
          | some nd =>
            if nd.child.isSome then some (none, none, e1)
            else some (leaf, parent, e1)
      else
        match wTrie_hasmultichild h child with
        | none => none
        | some (mc, e2) =>
          let lp : Option Nat × Option Nat :=
            if mc then (none, none)
            else ((if leaf = none then child else leaf),
                  (if parent = none then node else parent))
          match leafLoop h ws endn child (i + 1) lp.1 lp.2 f with
          | none => none
          | some (rl, rp, e3) => some (rl, rp, ewSeq (ewSeq e1 e2) e3)

/-- `wTrie_leaf(wtr, wstring, parent_p)`: find the word's end node with
`wTrie_findword` (failing with `E_WTRIE_NOSUCHWORD` if absent), then run the
leaf-hunting loop from the root.  The parent candidate is always written
through `parent_p` when that address is supplied. -/
def wTrie_leaf (h : Heap) (wtr : Option Nat) (ws : List Nat)
    (wantParent : Bool) (fuel : Nat) :
    Option (Option Nat × Option (Option Nat) × EW) :=
  match wtr with
  | none => some (none, none, some WErr.nullPointer)
  | some _ =>
    if cAt ws 0 = 0 then some (none, none, some WErr.emptyWord)
    else
      match wTrie_findword h wtr ws fuel with
      | none => none
      | some (endres, e0) =>
        match endres with
        | none => some (none, none, some WErr.noSuchWord)
        | some e =>
          match leafLoop h ws (some e) wtr 0 none none fuel with
          | none => none
          | some (lf, par, e1) =>
            some (lf, (if wantParent then some par else none), ewSeq e0 e1)

/-- `wTrie_discard`: free the node's meta and the node itself (the C code
poisons the bytes first); NULL input sets `E_WTRIE_NULLPOINTER` and
returns 0. -/
def wTrie_discard (h : Heap) (wtr : Option Nat) : Option (Heap × Bool × EW) :=
  match wtr with
  | none => some (h, false, some WErr.nullPointer)
  | some a =>
    match h.get a with
    | none => none
    | some _ => some (Heap.free h a, true, none)

/-- `wTrie_purge`: read the sibling and child pointers, discard the node,
then recursively purge the (pre-read) sibling and then the (pre-read) child.
Also returns the sequence of discarded addresses, in discard order.
The C guard `_PRECONDITION (wTrie_rOK, E_WTRIE_CORRUPT, return)` tests the
function pointer `wTrie_rOK` itself, which is never null, so the guard never
fires and is omitted here. -/
def wTrie_purge (h : Heap) (a : Nat) (fuel : Nat) : Option (Heap × List Nat) :=
  match fuel with
  | 0 => none
  | f + 1 =>
    match h.get a with
    | none => none
    | some nd =>
      match wTrie_discard h (some a) with
      | none => none
      | some (h1, _, _) =>
        match (match nd.sibling with
               | none => some (h1, ([] : List Nat))
               | some s => wTrie_purge h1 s f) with
        | none => none
        | some (h2, t1) =>
          match (match nd.child with
                 | none => some (h2, ([] : List Nat))
                 | some c => wTrie_purge h2 c f) with
          | none => none
          | some (h3, t2) => some (h3, a :: (t1 ++ t2))

/-- `wTrie_collapse(parent, wch)`: locate the child carrying `wch` (and its
previous sibling), relink — but only when the child has a next sibling —
either the previous sibling or the parent to that next sibling, cut the
child's own sibling pointer, and purge the child.  A NULL parent fails with
`E_WTRIE_ORPHAN`, a missing child with `E_WTRIE_NOSUCHNODE`. -/
def wTrie_collapse (h : Heap) (parent : Option Nat) (wch : Nat) (fuel : Nat) :
    Option (Heap × Bool × EW) :=
  match parent with
  | none => some (h, false, some WErr.orphan)
  | some p =>
    match wTrie_child h parent wch fuel with
    | none => none
    | some (found, lsibW, e1) =>
      match found with
      | none => some (h, false, ewSeq e1 (some WErr.noSuchNode))
      | some c =>
        let lsib : Option Nat := lsibW.getD none
        match h.get c with
        | none => none
        | some cn =>
          match (if cn.sibling.isSome then
                   (match lsib with
                    | some l =>
                      (h.get l).map
                        (fun ln => h.set l ⟨ln.wc, cn.sibling, ln.child, ln.term, ln.meta⟩)
                    | none =>
                      (h.get p).map
                        (fun pn => h.set p ⟨pn.wc, pn.sibling, cn.sibling, pn.term, pn.meta⟩))
                 else some h) with
          | none => none
          | some h1 =>
            match h1.get c with
            | none => none
            | some cn1 =>
              let h2 := h1.set c ⟨cn1.wc, none, cn1.child, cn1.term, cn1.meta⟩
              match wTrie_purge h2 c fuel with
              | none => none
              | some (h3, _) => some (h3, true, e1)

/-- `wTrie_rmword(wtr, wstring)`: find the end node (failing with
`E_WTRIE_NOSUCHWORD`), hunt the leaf chain; when a chain was found and the
end node is childless, collapse the chain head off its parent (the collapse
result is ignored); otherwise merely clear the end node's terminal flag.
Returns 1 on success. -/
def wTrie_rmword (h : Heap) (wtr : Option Nat) (ws : List Nat) (fuel : Nat) :
    Option (Heap × Bool × EW) :=
  match wTrie_findword h wtr ws fuel with
  | none => none
  | some (endres, e0) =>
    match endres with
    | none => some (h, false, some WErr.noSuchWord)
    | some e =>
      match wTrie_leaf h wtr ws true fuel with
      | none => none
      | some (lf, parW, e1) =>
        let parent : Option Nat := parW.getD none
        match h.get e with
        | none => none
        | some en =>
          match lf with
          | some lfa =>
            if en.child.isSome then
              some (h.set e ⟨en.wc, en.sibling, en.child, false, en.meta⟩,
                    true, ewSeq e0 e1)
            else
              match h.get lfa with
              | none => none
              | some lfn =>
                match wTrie_collapse h parent lfn.wc fuel with
                | none => none
                | some (h2, _, e2) => some (h2, true, ewSeq (ewSeq e0 e1) e2)
          | none =>
            some (h.set e ⟨en.wc, en.sibling, en.child, false, en.meta⟩,
                  true, ewSeq e0 e1)

/-!
## Concrete scenarios

`rootH` is the freshly created root of the driver: one calloc'ed node
initialized by `wTrie_init (WT, L'\0', 0, NULL, 0)`, at address 0.
-/

def rootH : Heap := ⟨[(0, ⟨0, none, none, false, none⟩)], 1⟩

def dogW : List Nat := [100, 111, 103]

def doW : List Nat := [100, 111]

def aW : List Nat := [97]

/-- The heap after a (successful) `wTrie_addword` from the root. -/
def afterAdd (h : Heap) (ws : List Nat) : Heap :=
  match wTrie_addword h (some 0) ws 100 with
  | some (h1, _, _) => h1
  | none => h

/-- The heap after a `wTrie_rmword` from the root. -/
def afterRm (h : Heap) (ws : List Nat) : Heap :=
  match wTrie_rmword h (some 0) ws 100 with
  | some (h1, _, _) => h1
  | none => h

/-- Insert "do", then "dog" (the order of the shared-terminal test). -/
def h_do_dog : Heap := afterAdd (afterAdd rootH doW) dogW

/-- Insert "dog", then "do" (so both words are actually stored). -/
def h_dog_do : Heap := afterAdd (afterAdd rootH dogW) doW

/-- A parent (address 0) whose child list is node 1 (wc 97) followed by
node 2 (wc 98); node 3 (wc 99) is unrelated. -/
def h_twokids : Heap :=
  ⟨[(0, ⟨0, none, some 1, false, none⟩),
    (1, ⟨97, some 2, none, false, none⟩),
    (2, ⟨98, none, none, false, none⟩),
    (3, ⟨99, none, none, false, none⟩)], 4⟩

/-- A node (address 0) with both a sibling (node 1) and a child (node 2). -/
def h_sibchild : Heap :=
  ⟨[(0, ⟨10, some 1, some 2, false, none⟩),
    (1, ⟨11, none, none, false, none⟩),
    (2, ⟨12, none, none, false, none⟩)], 3⟩

/-!
## Specification-side definitions

Small executable notions used to state properties of the operations: the
sibling chain of a child list, and the pure recurrence computed by the
`leaf`/`parent` accumulators of the leaf-hunting loop.
-/

/-- The list of addresses of a sibling chain, head first. -/
def sibChain (h : Heap) (cur : Option Nat) (fuel : Nat) : Option (List Nat) :=
  match fuel with
  | 0 => none
  | f + 1 =>
    match cur with
    | none => some []
    | some c =>
      match h.get c with
      | none => none
      | some nd => (sibChain h nd.sibling f).map (fun l => c :: l)

/-- The addresses of a node's children, in list order. -/
def childList (h : Heap) (a : Nat) (fuel : Nat) : Option (List Nat) :=
  match h.get a with
  | none => none
  | some nd => sibChain h nd.child fuel

/-- One non-final iteration of the leaf-hunting loop acting on the
`(leaf, parent)` accumulator pair: a multi-child `child` discards the
candidates, otherwise an unset pair is set to `(child, node)`. -/
def chainAcc (lp : Option Nat × Option Nat) (node child : Option Nat)
    (mc : Bool) : Option Nat × Option Nat :=
  if mc then (none, none)
  else ((if lp.1 = none then child else lp.1),
        (if lp.2 = none then node else lp.2))

/-- The accumulator pair after the loop has walked a path `ps` (with
multi-child flags `bs`) starting below node `node`. -/
def chainRun (lp : Option Nat × Option Nat) (node : Nat) :
    List Nat → List Bool → Option Nat × Option Nat
  | [], _ => lp
  | _, [] => lp
  | p :: ps, b :: bs => chainRun (chainAcc lp (some node) (some p) b) p ps bs

/-- The index of the last `true` in a flag list, if any. -/
def lastTrueIdx : List Bool → Option Nat
  | [] => none
  | b :: bs =>
    match lastTrueIdx bs with
    | some k => some (k + 1)
    | none => if b then some 0 else none

/-- The two shapes the accumulator pair can take: unset, or both set. -/
def accShape (lp : Option Nat × Option Nat) : Prop :=
  lp = (none, none) ∨ ∃ l q, lp = (some l, some q)

/-- The heap produced by inserting "a" and then "ab" from a fresh root
(used to witness the prefix-clobbering theorem). -/
def c5H : Heap :=
  ⟨[(2, ⟨98, none, none, true, none⟩),
    (1, ⟨97, none, some 2, false, none⟩),
    (0, ⟨0, none, some 1, false, none⟩)], 3⟩

/-- Claim C1: inserting only "dog" and removing it succeeds and frees the
three chain nodes, but the root is NOT left childless: `wTrie_collapse` only
relinks when the cut child has a next sibling, so the root's child pointer
still holds the freed address of the d node (a dangling pointer).  This
refutes the claim's "the root's child link no longer references any node". -/
theorem c1_rmword_dog_leaves_dangling_child :
    (wTrie_rmword (afterAdd rootH dogW) (some 0) dogW 100).map
        (fun x => x.2.1) = some true ∧
    Heap.get (afterRm (afterAdd rootH dogW) dogW) 1 = none ∧
    Heap.get (afterRm (afterAdd rootH dogW) dogW) 2 = none ∧
    Heap.get (afterRm (afterAdd rootH dogW) dogW) 3 = none ∧
    (Heap.get (afterRm (afterAdd rootH dogW) dogW) 0).map WNode.child =
      some (some 1) := by
  decide

/-- Claim C3: after inserting "do" and then "dog", the non-strict spawn of
`wTrie_addword ("dog")` has already overwritten the o node's terminal flag
to false, so `wTrie_findword ("do")` fails and `wTrie_rmword ("do")` fails
with NoSuchWord instead of clearing the flag itself — refuting the claim
that the removal succeeds. -/
theorem c3_rmword_do_after_dog_fails :
    wTrie_findword h_do_dog (some 0) doW 100 =
      some (none, some WErr.noSuchWord) ∧
    wTrie_rmword h_do_dog (some 0) doW 100 =
      some (h_do_dog, false, some WErr.noSuchWord) ∧
    (Heap.get h_do_dog 2).map WNode.term = some false := by
  decide

/-- Claim C4: inserting "a" and looking it up returns its terminal node, and
removing it succeeds; but the subsequent lookup dereferences the freed chain
head still linked from the root (`wTrie_collapse` did not unlink it), i.e. it
is a use-after-free (modelled as `none`), not a clean NoSuchWord failure. -/
theorem c4_roundtrip_use_after_free :
    wTrie_findword (afterAdd rootH aW) (some 0) aW 100 = some (some 1, none) ∧
    (Heap.get (afterAdd rootH aW) 1).map WNode.term = some true ∧
    (wTrie_rmword (afterAdd rootH aW) (some 0) aW 100).map
        (fun x => x.2.1) = some true ∧
    (Heap.get (afterRm (afterAdd rootH aW) aW) 0).map WNode.child =
      some (some 1) ∧
    Heap.get (afterRm (afterAdd rootH aW) aW) 1 = none ∧
    wTrie_findword (afterRm (afterAdd rootH aW) aW) (some 0) aW 100 = none := by
  decide

/-- Claim C6: searching the symbol held by the second child writes NULL
through the previous-sibling address, although the head child (node 1)
precedes it: the loop skips the `lsib = child` update exactly when `child`
is the list head, so `lsib` is still NULL in the second iteration.  The
claim (and the function's own doc) require the write `some (some 1)`. -/
theorem c6_lsib_missing_at_position_two :
    (Heap.get h_twokids 0).map WNode.child = some (some 1) ∧
    (Heap.get h_twokids 1).map WNode.sibling = some (some 2) ∧
    wTrie_child h_twokids (some 0) 98 100 = some (some 2, some none, none) ∧
    (some (none : Option Nat) : Option (Option Nat)) ≠ some (some 1) := by
  decide

/-- Claim C10: for the stored one-character word "a",
`wTrie_findword_rel` returns the terminal node but never writes through the
supplied parent address (the top-level success branch has no
`*parent_p = ...` assignment), refuting the claim for words of length 1.
For the three-character word "dog" the relatives are reported. -/
theorem c10_findword_rel_len1_parent_unwritten :
    wTrie_findword_rel (afterAdd rootH aW) (some 0) aW true true 100 =
      some (some 1, none, some none, none) ∧
    wTrie_findword_rel h_do_dog (some 0) dogW true true 100 =
      some (some 3, some (some 2), some none, none) := by
  constructor
  · decide
  · decide

/-- Claim C2, counterexample: with "dog" and then "do" inserted (so both are
stored), the private chain reported for "dog" is headed by the d node
(address 1) with parent the root; the chain 1 → 2 → 3 contains node 2, which
is the terminal node of the other stored word "do" and lies on its path —
refuting the claimed exclusivity of the chain. -/
theorem c2_counterexample_chain_contains_other_terminal :
    wTrie_findword h_dog_do (some 0) doW 100 = some (some 2, none) ∧
    wTrie_findword h_dog_do (some 0) dogW 100 = some (some 3, none) ∧
    wTrie_leaf h_dog_do (some 0) dogW true 100 =
      some (some 1, some (some 0), none) ∧
    (Heap.get h_dog_do 1).map WNode.child = some (some 2) ∧
    (Heap.get h_dog_do 2).map WNode.child = some (some 3) ∧
    (Heap.get h_dog_do 2).map WNode.term = some true := by
  decide

/-- Claim C7, counterexample: `wTrie_rOK` on an absent (NULL) reference
returns 0 (`return wtr && ...`), not true as the claim states. -/
theorem c7_counterexample_rok_null_is_false :
    wTrie_rOK rootH none 1 = some false ∧
    (some false : Option Bool) ≠ some true := by
  decide

/-- Claim C8, counterexample: on a node (address 0) with sibling 1 and child
2, purge discards in the order [0, 1, 2] — the node itself first — not in
the claimed order [1, 2, 0] (sibling chain, then child subtree, then the
node). -/
theorem c8_counterexample_purge_order :
    wTrie_purge h_sibchild 0 10 = some (⟨[], 3⟩, [0, 1, 2]) ∧
    ([0, 1, 2] : List Nat) ≠ [1, 2, 0] := by
  decide

/-!
## Heap primitives: basic lemmas
-/

theorem storeGet_set (es : List (Nat × WNode)) (a : Nat) (nd : WNode) (b : Nat) :
    storeGet (storeSet es a nd) b =
      if b = a then (storeGet es a).map (fun _ => nd) else storeGet es b := by
  induction es with
  | nil => simp [storeGet, storeSet]
  | cons e es ih =>
    obtain ⟨k, v⟩ := e
    by_cases hka : k = a
    · subst hka
      by_cases hbk : b = k
      · subst hbk
        simp [storeGet, storeSet]
      · simp [storeGet, storeSet, hbk, ih]
    · by_cases hbk : b = k
      · subst hbk
        simp [storeGet, storeSet, hka, ih, Ne.symm hka]
      · simp [storeGet, storeSet, hka, hbk, ih, Ne.symm hka]

theorem Heap.get_set (h : Heap) (a : Nat) (nd : WNode) (b : Nat) :
    (h.set a nd).get b =
      if b = a then (h.get a).map (fun _ => nd) else h.get b :=
  storeGet_set h.store a nd b

theorem storeGet_free (es : List (Nat × WNode)) (a b : Nat) :
    storeGet (storeFree es a) b = if b = a then none else storeGet es b := by
  induction es with
  | nil => simp [storeGet, storeFree]
  | cons e es ih =>
    obtain ⟨k, v⟩ := e
    by_cases hka : k = a
    · subst hka
      by_cases hbk : b = k
      · subst hbk
        simp [storeGet, storeFree, ih]
      · simp [storeGet, storeFree, hbk, ih]
    · by_cases hbk : b = k
      · subst hbk
        simp [storeGet, storeFree, hka, Ne.symm hka]
      · simp [storeGet, storeFree, hka, hbk, ih]

theorem Heap.get_free (h : Heap) (a b : Nat) :
    (h.free a).get b = if b = a then none else h.get b :=
  storeGet_free h.store a b

theorem Heap.get_alloc (h : Heap) (nd : WNode) (b : Nat) :
    ((h.alloc nd).1).get b = if b = h.next then some nd else h.get b := by
  simp only [Heap.alloc, Heap.get, storeGet]

theorem wfH_set (h : Heap) (a : Nat) (nd : WNode) (hw : wfH h) :
    wfH (h.set a nd) := by
  intro b nb hget
  rw [Heap.get_set] at hget
  by_cases hba : b = a
  · subst hba
    cases hget0 : h.get b with
    | none => simp [hget0] at hget
    | some x => exact by simpa [Heap.set] using hw b x hget0
  · simp only [hba, if_false] at hget
    simpa [Heap.set] using hw b nb hget

theorem wfH_alloc (h : Heap) (nd : WNode) (hw : wfH h) :
    wfH ((h.alloc nd).1) := by
  intro b nb hget
  rw [Heap.get_alloc] at hget
  by_cases hbn : b = h.next
  · subst hbn
    simp [Heap.alloc]
  · simp only [hbn, if_false] at hget
    have := hw b nb hget
    simp only [Heap.alloc]
    omega

theorem wfH_get_next (h : Heap) (hw : wfH h) : h.get h.next = none := by
  cases hget : h.get h.next with
  | none => rfl
  | some nd => exact absurd (hw _ _ hget) (by omega)

/-!
## The child scan: monotonicity, found nodes, preservation
-/

theorem childLoop_zero (h : Heap) (hp cur lsib : Option Nat) (wch : Nat) :
    wTrie_childLoop h hp cur wch lsib 0 = none := rfl

theorem childLoop_nil (h : Heap) (hp lsib : Option Nat) (wch f : Nat) :
    wTrie_childLoop h hp none wch lsib (f + 1) = some (none, none) := rfl

theorem childLoop_cons (h : Heap) (hp lsib : Option Nat) (c wch f : Nat) :
    wTrie_childLoop h hp (some c) wch lsib (f + 1) =
      match h.get c with
      | none => none
      | some nd =>
        if nd.wc = wch then some (some c, some lsib)
        else wTrie_childLoop h hp nd.sibling wch
               (if some c = hp then lsib else some c) f := rfl

theorem child_none_eq (h : Heap) (wch f : Nat) :
    wTrie_child h none wch f = some (none, none, some WErr.orphan) := rfl

theorem child_some_eq (h : Heap) (p wch f : Nat) :
    wTrie_child h (some p) wch f =
      match h.get p with
      | none => none
      | some pn =>
        match wTrie_childLoop h pn.child pn.child wch none f with
        | none => none
        | some (res, w) => some (res, w, none) := rfl

theorem wTrie_childLoop_mono (h : Heap) (hp : Option Nat) (wch : Nat) :
    ∀ (f g : Nat) (cur lsib : Option Nat) (out : Option Nat × Option (Option Nat)),
      f ≤ g → wTrie_childLoop h hp cur wch lsib f = some out →
      wTrie_childLoop h hp cur wch lsib g = some out := by
  intro f
  induction f with
  | zero => intro g cur lsib out _ hrun; simp [childLoop_zero] at hrun
  | succ f ih =>
    intro g cur lsib out hfg hrun
    obtain ⟨g1, rfl⟩ : ∃ g1, g = g1 + 1 := ⟨g - 1, by omega⟩
    cases cur with
    | none => rw [childLoop_nil] at hrun; rw [childLoop_nil]; exact hrun
    | some c =>
      rw [childLoop_cons] at hrun
      rw [childLoop_cons]
      cases hget : h.get c with
      | none => simp [hget] at hrun
      | some nd =>
        simp only [hget] at hrun ⊢
        by_cases hwc : nd.wc = wch
        · simpa [hwc] using hrun
        · simp only [hwc, if_false] at hrun ⊢
          exact ih g1 _ _ _ (by omega) hrun

theorem wTrie_child_mono (h : Heap) (p : Option Nat) (wch : Nat)
    (f g : Nat) (out : Option Nat × Option (Option Nat) × EW)
    (hfg : f ≤ g) (hrun : wTrie_child h p wch f = some out) :
    wTrie_child h p wch g = some out := by
  cases p with
  | none => exact hrun
  | some a =>
    rw [child_some_eq] at hrun
    rw [child_some_eq]
    cases hget : h.get a with
    | none => simp [hget] at hrun
    | some pn =>
      simp only [hget] at hrun ⊢
      cases hloop : wTrie_childLoop h pn.child pn.child wch none f with
      | none => simp [hloop] at hrun
      | some lo =>
        rw [wTrie_childLoop_mono h pn.child wch f g pn.child none lo hfg hloop]
        simpa [hloop] using hrun

theorem wTrie_childLoop_found (h : Heap) (hp : Option Nat) (wch : Nat) :
    ∀ (f : Nat) (cur lsib : Option Nat) (c : Nat) (w : Option (Option Nat)),
      wTrie_childLoop h hp cur wch lsib f = some (some c, w) →
      ∃ cn, h.get c = some cn ∧ cn.wc = wch := by
  intro f
  induction f with
  | zero => intro cur lsib c w hrun; simp [childLoop_zero] at hrun
  | succ f ih =>
    intro cur lsib c w hrun
    cases cur with
    | none => rw [childLoop_nil] at hrun; simp at hrun
    | some c0 =>
      rw [childLoop_cons] at hrun
      cases hget : h.get c0 with
      | none => simp [hget] at hrun
      | some nd =>
        simp only [hget] at hrun
        by_cases hwc : nd.wc = wch
        · simp only [hwc, if_true, Option.some.injEq, Prod.mk.injEq] at hrun
          obtain ⟨h1, _⟩ := hrun
          cases h1
          exact ⟨nd, hget, hwc⟩
        · simp only [hwc, if_false] at hrun
          exact ih _ _ _ _ hrun

theorem wTrie_child_found (h : Heap) (p wch f : Nat) (c : Nat)
    (w : Option (Option Nat)) (e : EW)
    (hrun : wTrie_child h (some p) wch f = some (some c, w, e)) :
    ∃ cn, h.get c = some cn ∧ cn.wc = wch := by
  rw [child_some_eq] at hrun
  cases hget : h.get p with
  | none => simp [hget] at hrun
  | some pn =>
    simp only [hget] at hrun
    cases hloop : wTrie_childLoop h pn.child pn.child wch none f with
    | none => simp [hloop] at hrun
    | some lo =>
      obtain ⟨res, wv⟩ := lo
      simp only [hloop, Option.some.injEq, Prod.mk.injEq] at hrun
      obtain ⟨h1, h2, h3⟩ := hrun
      subst h1
      exact wTrie_childLoop_found h pn.child wch f pn.child none c wv hloop

theorem wTrie_child_errno (h : Heap) (p wch f : Nat)
    (out : Option Nat × Option (Option Nat) × EW)
    (hrun : wTrie_child h (some p) wch f = some out) : out.2.2 = none := by
  rw [child_some_eq] at hrun
  cases hget : h.get p with
  | none => simp [hget] at hrun
  | some pn =>
    simp only [hget] at hrun
    cases hloop : wTrie_childLoop h pn.child pn.child wch none f with
    | none => simp [hloop] at hrun
    | some lo =>
      obtain ⟨res, wv⟩ := lo
      simp only [hloop, Option.some.injEq] at hrun
      rw [← hrun]

/-- One heap preserves the other's nodes: same presence, same wc, same
sibling pointer (term, meta and child may differ). -/
def oldPres (h h1 : Heap) : Prop :=
  ∀ a nd, h.get a = some nd →
    ∃ nd1, h1.get a = some nd1 ∧ nd1.wc = nd.wc ∧ nd1.sibling = nd.sibling

theorem oldPres_refl (h : Heap) : oldPres h h :=
  fun _ nd hget => ⟨nd, hget, rfl, rfl⟩

theorem oldPres_trans (h1 h2 h3 : Heap)
    (h12 : oldPres h1 h2) (h23 : oldPres h2 h3) : oldPres h1 h3 := by
  intro a nd hget
  obtain ⟨nd2, hg2, hwc2, hsib2⟩ := h12 a nd hget
  obtain ⟨nd3, hg3, hwc3, hsib3⟩ := h23 a nd2 hg2
  exact ⟨nd3, hg3, hwc3.trans hwc2, hsib3.trans hsib2⟩

theorem wTrie_childLoop_pres (h h1 : Heap) (hpres : oldPres h h1)
    (hp : Option Nat) (wch : Nat) :
    ∀ (f : Nat) (cur lsib : Option Nat) (out : Option Nat × Option (Option Nat)),
      wTrie_childLoop h hp cur wch lsib f = some out →
      wTrie_childLoop h1 hp cur wch lsib f = some out := by
  intro f
  induction f with
  | zero => intro cur lsib out hrun; simp [childLoop_zero] at hrun
  | succ f ih =>
    intro cur lsib out hrun
    cases cur with
    | none => rw [childLoop_nil] at hrun; rw [childLoop_nil]; exact hrun
    | some c =>
      rw [childLoop_cons] at hrun
      rw [childLoop_cons]
      cases hget : h.get c with
      | none => simp [hget] at hrun
      | some nd =>
        simp only [hget] at hrun
        obtain ⟨nd1, hget1, hwc1, hsib1⟩ := hpres c nd hget
        simp only [hget1, hwc1, hsib1]
        by_cases hwc : nd.wc = wch
        · simpa [hwc] using hrun
        · simp only [hwc, if_false] at hrun ⊢
          exact ih _ _ _ hrun

/-!
## The consistency check
-/

theorem rok_none (h : Heap) (f : Nat) : wTrie_rOK h none f = some false := by
  cases f with
  | zero => rfl
  | succ f => rfl

theorem rok_zero (h : Heap) (a : Nat) : wTrie_rOK h (some a) 0 = none := rfl

theorem rok_succ (h : Heap) (a f : Nat) :
    wTrie_rOK h (some a) (f + 1) =
      match h.get a with
      | none => none
      | some nd =>
        match (match nd.sibling with
               | none => some true
               | some s => wTrie_rOK h (some s) f) with
        | none => none
        | some false => some false
        | some true =>
          match nd.child with
          | none => some true
          | some c => wTrie_rOK h (some c) f := rfl

/-- On a non-NULL reference the recursive check can never report failure:
every recursive call is again on a non-NULL pointer, and only the NULL case
produces 0. -/
theorem rok_some_imp_true (h : Heap) :
    ∀ (f a : Nat) (b : Bool), wTrie_rOK h (some a) f = some b → b = true := by
  intro f
  induction f with
  | zero => intro a b hrun; rw [rok_zero] at hrun; exact absurd hrun (by simp)
  | succ f ih =>
    intro a b hrun
    rw [rok_succ] at hrun
    cases hget : h.get a with
    | none => simp [hget] at hrun
    | some nd =>
      simp only [hget] at hrun
      cases hs : nd.sibling with
      | none =>
        simp only [hs] at hrun
        cases hc : nd.child with
        | none => simpa [hc] using hrun.symm
        | some c => simp only [hc] at hrun; exact ih c b hrun
      | some s =>
        simp only [hs] at hrun
        cases hv : wTrie_rOK h (some s) f with
        | none => simp [hv] at hrun
        | some bs =>
          have hbs := ih s bs hv
          subst hbs
          simp only [hv] at hrun
          cases hc : nd.child with
          | none => simpa [hc] using hrun.symm
          | some c => simp only [hc] at hrun; exact ih c b hrun

/-- Claim C7 (amended): the consistency checker returns true iff the node
reference is present (non-NULL and allocated) and both its sibling subtree
and its child subtree pass the same check; an absent (NULL) reference yields
false, not true. -/
theorem c7_rok_characterization :
    (∀ (h : Heap) (f : Nat), wTrie_rOK h none f = some false) ∧
    (∀ (h : Heap) (a f : Nat) (nd : WNode), h.get a = some nd →
      (wTrie_rOK h (some a) (f + 1) = some true ↔
        ((∀ s, nd.sibling = some s → wTrie_rOK h (some s) f = some true) ∧
         (∀ c, nd.child = some c → wTrie_rOK h (some c) f = some true)))) := by
  constructor
  · intro h f; exact rok_none h f
  · intro h a f nd hget
    rw [rok_succ]
    simp only [hget]
    cases hs : nd.sibling with
    | none =>
      simp only
      cases hc : nd.child with
      | none => simp
      | some c =>
        simp only
        constructor
        · intro hv
          exact ⟨(fun s hsx => nomatch hsx),
                 (fun c1 hc1 => by cases hc1; exact hv)⟩
        · intro hv
          exact hv.2 c rfl
    | some s =>
      simp only
      cases hv : wTrie_rOK h (some s) f with
      | none =>
        simp only
        constructor
        · intro hx; exact absurd hx (by simp)
        · intro hx
          exact absurd (hx.1 s rfl) (by simp [hv])
      | some bs =>
        have hbs := rok_some_imp_true h f s bs hv
        subst hbs
        simp only
        cases hc : nd.child with
        | none =>
          simp only
          constructor
          · intro _
            exact ⟨(fun s1 hs1 => by cases hs1; exact hv),
                   (fun c1 hc1 => nomatch hc1)⟩
          · intro _; trivial
        | some c =>
          simp only
          constructor
          · intro hx
            exact ⟨(fun s1 hs1 => by cases hs1; exact hv),
                   (fun c1 hc1 => by cases hc1; exact hx)⟩
          · intro hx
            exact hx.2 c rfl

/-- Witness: the amended characterization applied to the concrete root heap
(a single childless, siblingless node). -/
theorem c7_rok_characterization_witness :
    wTrie_rOK rootH (some 0) 1 = some true :=
  (c7_rok_characterization.2 rootH 0 0 ⟨0, none, none, false, none⟩
      (by decide)).mpr
    ⟨(fun s hs => nomatch hs), (fun c hc => nomatch hc)⟩

/-!
## Purge
-/

theorem purge_zero (h : Heap) (a : Nat) : wTrie_purge h a 0 = none := rfl

theorem purge_succ (h : Heap) (a f : Nat) :
    wTrie_purge h a (f + 1) =
      match h.get a with
      | none => none
      | some nd =>
        match wTrie_discard h (some a) with
        | none => none
        | some (h1, _, _) =>
          match (match nd.sibling with
                 | none => some (h1, ([] : List Nat))
                 | some s => wTrie_purge h1 s f) with
          | none => none
          | some (h2, t1) =>
            match (match nd.child with
                   | none => some (h2, ([] : List Nat))
                   | some c => wTrie_purge h2 c f) with
            | none => none
            | some (h3, t2) => some (h3, a :: (t1 ++ t2)) := rfl

theorem discard_some (h : Heap) (a : Nat) (nd : WNode)
    (hget : h.get a = some nd) :
    wTrie_discard h (some a) = some (Heap.free h a, true, none) := by
  simp [wTrie_discard, hget]

/-- Claim C8 (amended): purge discards the node ITSELF first, then the
entire subtree of its (pre-read) sibling, then the subtree of its (pre-read)
child — the discard trace is the node's address followed by the sibling
purge's trace followed by the child purge's trace.  And the consistency
check, whose function pointer (not result) the guard tests, can never even
report failure on a non-NULL reference, so purge never no-ops on a reachable
structure. -/
theorem c8_purge_node_first_and_guard_vacuous :
    (∀ (h : Heap) (a f : Nat) (nd : WNode) (hend : Heap) (t : List Nat),
      h.get a = some nd → wTrie_purge h a (f + 1) = some (hend, t) →
      ∃ h2 t1 t2,
        (match nd.sibling with
         | none => some (Heap.free h a, ([] : List Nat))
         | some s => wTrie_purge (Heap.free h a) s f) = some (h2, t1) ∧
        (match nd.child with
         | none => some (h2, ([] : List Nat))
         | some c => wTrie_purge h2 c f) = some (hend, t2) ∧
        t = a :: (t1 ++ t2)) ∧
    (∀ (h : Heap) (a f : Nat) (b : Bool),
      wTrie_rOK h (some a) f = some b → b = true) := by
  constructor
  · intro h a f nd hend t hget hrun
    rw [purge_succ] at hrun
    simp only [hget, discard_some h a nd hget] at hrun
    cases hk1 : (match nd.sibling with
                 | none => some (Heap.free h a, ([] : List Nat))
                 | some s => wTrie_purge (Heap.free h a) s f) with
    | none => simp [hk1] at hrun
    | some p1 =>
      obtain ⟨h2, t1⟩ := p1
      simp only [hk1] at hrun
      cases hk2 : (match nd.child with
                   | none => some (h2, ([] : List Nat))
                   | some c => wTrie_purge h2 c f) with
      | none => simp [hk2] at hrun
      | some p2 =>
        obtain ⟨h3, t2⟩ := p2
        simp only [hk2, Option.some.injEq, Prod.mk.injEq] at hrun
        obtain ⟨hh, ht⟩ := hrun
        subst hh
        exact ⟨h2, t1, t2, rfl, hk2, ht.symm⟩
  · intro h a f b hrun
    exact rok_some_imp_true h f a b hrun

/-- Witness: the order theorem applied to the concrete heap of a node
(address 0) with sibling 1 and child 2. -/
theorem c8_purge_node_first_witness :
    ∃ h2 t1 t2,
      wTrie_purge (Heap.free h_sibchild 0) 1 9 = some (h2, t1) ∧
      wTrie_purge h2 2 9 = some (⟨[], 3⟩, t2) ∧
      ([0, 1, 2] : List Nat) = 0 :: (t1 ++ t2) :=
  c8_purge_node_first_and_guard_vacuous.1 h_sibchild 0 9
    ⟨10, some 1, some 2, false, none⟩ ⟨[], 3⟩ [0, 1, 2] (by decide) (by decide)

/-!
## Spawn on an existing child (C9)
-/

theorem sibChain_zero (h : Heap) (cur : Option Nat) : sibChain h cur 0 = none := rfl

theorem sibChain_nil (h : Heap) (f : Nat) : sibChain h none (f + 1) = some [] := rfl

theorem sibChain_cons (h : Heap) (c f : Nat) :
    sibChain h (some c) (f + 1) =
      match h.get c with
      | none => none
      | some nd => (sibChain h nd.sibling f).map (fun l => c :: l) := rfl

/-- Two heaps with the same node shapes everywhere: same presence and, for
present nodes, same wc, sibling and child. -/
def shapeEq (h h1 : Heap) : Prop :=
  ∀ x, (h.get x).map (fun nd => (nd.wc, nd.sibling, nd.child)) =
       (h1.get x).map (fun nd => (nd.wc, nd.sibling, nd.child))

theorem sibChain_shapeEq (h h1 : Heap) (hsh : shapeEq h h1) :
    ∀ (f : Nat) (cur : Option Nat), sibChain h cur f = sibChain h1 cur f := by
  intro f
  induction f with
  | zero => intro cur; rfl
  | succ f ih =>
    intro cur
    cases cur with
    | none => rfl
    | some c =>
      rw [sibChain_cons, sibChain_cons]
      have hs := hsh c
      cases hg : h.get c with
      | none =>
        rw [hg] at hs
        cases hg1 : h1.get c with
        | none => rfl
        | some nd1 => rw [hg1] at hs; exact absurd hs (by simp)
      | some nd =>
        rw [hg] at hs
        cases hg1 : h1.get c with
        | none => rw [hg1] at hs; exact absurd hs (by simp)
        | some nd1 =>
          rw [hg1] at hs
          simp only [Option.map_some', Option.some.injEq, Prod.mk.injEq] at hs
          obtain ⟨_, hsib, _⟩ := hs
          simp only [hsib, ih]

theorem childList_shapeEq (h h1 : Heap) (hsh : shapeEq h h1)
    (a f : Nat) : childList h a f = childList h1 a f := by
  unfold childList
  have hs := hsh a
  cases hg : h.get a with
  | none =>
    rw [hg] at hs
    cases hg1 : h1.get a with
    | none => rfl
    | some nd1 => rw [hg1] at hs; exact absurd hs (by simp)
  | some nd =>
    rw [hg] at hs
    cases hg1 : h1.get a with
    | none => rw [hg1] at hs; exact absurd hs (by simp)
    | some nd1 =>
      rw [hg1] at hs
      simp only [Option.map_some', Option.some.injEq, Prod.mk.injEq] at hs
      obtain ⟨_, _, hch⟩ := hs
      show sibChain h nd.child f = sibChain h1 nd1.child f
      rw [hch]
      exact sibChain_shapeEq h h1 hsh f _

/-- Claim C9: when the parent already has a child carrying the symbol,
strict spawn fails with DuplicateChild leaving the heap literally unchanged,
and non-strict spawn overwrites exactly that child's terminal flag and meta
in place, preserving every node's presence and every child list (hence the
list's length and the child's position in it), and returns the child. -/
theorem c9_spawn_existing_child (h : Heap) (p c wch : Nat) (t : Bool)
    (m : Option Nat) (msz F : Nat) (w : Option (Option Nat)) (e : EW)
    (hfound : wTrie_child h (some p) wch F = some (some c, w, e)) :
    wTrie_spawn h true (some p) wch t m msz F =
      some (h, none, some WErr.dupChild) ∧
    ∃ cn, h.get c = some cn ∧ cn.wc = wch ∧
      wTrie_spawn h false (some p) wch t m msz F =
        some (h.set c ⟨cn.wc, cn.sibling, cn.child, t, m⟩, some c, none) ∧
      (∀ x g, childList (h.set c ⟨cn.wc, cn.sibling, cn.child, t, m⟩) x g =
        childList h x g) ∧
      (∀ x, ((h.set c ⟨cn.wc, cn.sibling, cn.child, t, m⟩).get x).isSome =
        (h.get x).isSome) := by
  obtain ⟨cn, hgc, hwc⟩ := wTrie_child_found h p wch F c w e hfound
  have hsh : shapeEq (h.set c ⟨cn.wc, cn.sibling, cn.child, t, m⟩) h := by
    intro x
    rw [Heap.get_set]
    by_cases hxc : x = c
    · subst hxc; simp [hgc]
    · simp [hxc]
  refine ⟨?_, cn, hgc, hwc, ?_, ?_, ?_⟩
  · simp [wTrie_spawn, hfound]
  · simp [wTrie_spawn, hfound, hgc]
  · intro x g; exact childList_shapeEq _ _ hsh x g
  · intro x
    rw [Heap.get_set]
    by_cases hxc : x = c
    · subst hxc; simp [hgc]
    · simp [hxc]

/-- Witness: the spawn theorem applied to the parent of `h_twokids`, whose
child list already holds wc 98 at position 2. -/
theorem c9_spawn_existing_child_witness :
    wTrie_spawn h_twokids true (some 0) 98 true (some 7) 0 100 =
      some (h_twokids, none, some WErr.dupChild) :=
  (c9_spawn_existing_child h_twokids 0 2 98 true (some 7) 0 100 (some none) none
      (by decide)).1

/-!
## The leaf-hunting loop, pure part (C2)
-/

theorem cAt_cons_zero (c : Nat) (rest : List Nat) : cAt (c :: rest) 0 = c := rfl

theorem cAt_cons_succ (c : Nat) (rest : List Nat) (j : Nat) :
    cAt (c :: rest) (j + 1) = cAt rest j := rfl

theorem cAt_nil (j : Nat) : cAt [] j = 0 := by cases j <;> rfl

theorem cAt_length (ws : List Nat) : cAt ws ws.length = 0 := by
  induction ws with
  | nil => rfl
  | cons c rest ih => simpa [cAt_cons_succ] using ih

theorem lastTrueIdx_none_spec :
    ∀ (bs : List Bool), lastTrueIdx bs = none →
      ∀ j, j < bs.length → bs.getD j false = false := by
  intro bs
  induction bs with
  | nil => intro _ j hj; simp at hj
  | cons b rest ih =>
    intro hlast j hj
    rw [lastTrueIdx] at hlast
    cases hr : lastTrueIdx rest with
    | some k => simp [hr] at hlast
    | none =>
      rw [hr] at hlast
      have hb : b = false := by
        by_contra hb
        simp [Bool.of_not_eq_false hb] at hlast
      cases j with
      | zero => simpa using hb
      | succ j => exact ih hr j (by simpa using hj)

theorem lastTrueIdx_some_spec :
    ∀ (bs : List Bool) (t : Nat), lastTrueIdx bs = some t →
      t < bs.length ∧ bs.getD t false = true ∧
      ∀ j, t < j → j < bs.length → bs.getD j false = false := by
  intro bs
  induction bs with
  | nil => intro t ht; simp [lastTrueIdx] at ht
  | cons b rest ih =>
    intro t ht
    rw [lastTrueIdx] at ht
    cases hr : lastTrueIdx rest with
    | some k =>
      rw [hr] at ht
      simp only [Option.some.injEq] at ht
      subst ht
      obtain ⟨hk1, hk2, hk3⟩ := ih k hr
      refine ⟨by simpa using Nat.succ_lt_succ hk1, by simpa using hk2, ?_⟩
      intro j hj1 hj2
      cases j with
      | zero => omega
      | succ j =>
        exact (by simpa using ih k hr |>.2.2 j (by omega) (by simpa using hj2))
    | none =>
      rw [hr] at ht
      by_cases hb : b = true
      · simp only [hb, if_true, Option.some.injEq] at ht
        subst ht
        refine ⟨by simp, by simpa using hb, ?_⟩
        intro j hj1 hj2
        cases j with
        | zero => omega
        | succ j => exact lastTrueIdx_none_spec rest hr j (by simpa using hj2)
      · simp [Bool.of_not_eq_true hb] at ht

theorem accShape_chainAcc (lp : Option Nat × Option Nat) (n p : Nat)
    (mc : Bool) (hlp : accShape lp) :
    accShape (chainAcc lp (some n) (some p) mc) := by
  cases mc with
  | true => left; simp [chainAcc]
  | false =>
    right
    rcases hlp with hlp | ⟨l, q, hlp⟩
    · subst hlp; exact ⟨p, n, by simp [chainAcc]⟩
    · subst hlp; exact ⟨l, q, by simp [chainAcc]⟩

theorem chainRun_allfalse_set :
    ∀ (ps : List Nat) (bs : List Bool) (node l q : Nat),
      ps.length = bs.length →
      (∀ j, j < bs.length → bs.getD j false = false) →
      chainRun (some l, some q) node ps bs = (some l, some q) := by
  intro ps
  induction ps with
  | nil => intro bs node l q hlen hflags; rw [chainRun]
  | cons p ps ih =>
    intro bs node l q hlen hflags
    cases bs with
    | nil => simp at hlen
    | cons b rest =>
      have hb : b = false := by simpa using hflags 0 (by simp)
      subst hb
      rw [chainRun]
      have : chainAcc (some l, some q) (some node) (some p) false =
          (some l, some q) := by simp [chainAcc]
      rw [this]
      exact ih rest p l q (by simpa using hlen)
        (fun j hj => hflags (j + 1) (by simpa using Nat.succ_lt_succ hj))

theorem chainRun_allfalse_none :
    ∀ (ps : List Nat) (bs : List Bool) (node : Nat),
      ps ≠ [] →
      ps.length = bs.length →
      (∀ j, j < bs.length → bs.getD j false = false) →
      chainRun (none, none) node ps bs = (some (ps.getD 0 0), some node) := by
  intro ps bs node hne hlen hflags
  cases ps with
  | nil => exact absurd rfl hne
  | cons p ps =>
    cases bs with
    | nil => simp at hlen
    | cons b rest =>
      have hb : b = false := by simpa using hflags 0 (by simp)
      subst hb
      rw [chainRun]
      have : chainAcc (none, none) (some node) (some p) false =
          (some p, some node) := by simp [chainAcc]
      rw [this]
      simpa using chainRun_allfalse_set ps rest p p node (by simpa using hlen)
        (fun j hj => hflags (j + 1) (by simpa using Nat.succ_lt_succ hj))

theorem chainRun_lastTrue :
    ∀ (ps : List Nat) (bs : List Bool) (t node : Nat)
      (lp : Option Nat × Option Nat),
      ps.length = bs.length → accShape lp → lastTrueIdx bs = some t →
      chainRun lp node ps bs =
        (if t + 1 = ps.length then (none, none)
         else (some (ps.getD (t + 1) 0), some (ps.getD t 0))) := by
  intro ps
  induction ps with
  | nil =>
    intro bs t node lp hlen _ ht
    cases bs with
    | nil => simp [lastTrueIdx] at ht
    | cons b rest => simp at hlen
  | cons p ps ih =>
    intro bs t node lp hlen hshape ht
    cases bs with
    | nil => simp at hlen
    | cons b rest =>
      rw [chainRun]
      rw [lastTrueIdx] at ht
      cases hr : lastTrueIdx rest with
      | some k =>
        rw [hr] at ht
        simp only [Option.some.injEq] at ht
        subst ht
        rw [ih rest k p (chainAcc lp (some node) (some p) b)
              (by simpa using hlen)
              (accShape_chainAcc lp node p b hshape) hr]
        have hlen2 : (p :: ps).length = ps.length + 1 := by simp
        by_cases hkl : k + 1 = ps.length
        · simp [hkl]
        · have h1 : ¬(k + 1 + 1 = (p :: ps).length) := by simp; omega
          simp only [hkl, if_false, h1, if_false]
          rfl
      | none =>
        rw [hr] at ht
        by_cases hb : b = true
        · simp only [hb, if_true, Option.some.injEq] at ht
          subst ht
          subst hb
          have hacc : chainAcc lp (some node) (some p) true = (none, none) := by
            simp [chainAcc]
          rw [hacc]
          cases hps : ps with
          | nil =>
            cases rest with
            | nil => rw [chainRun]; simp
            | cons b2 r2 => rw [hps] at hlen; simp at hlen
          | cons p2 ps2 =>
            have hne : ps ≠ [] := by simp [hps]
            rw [← hps]
            rw [chainRun_allfalse_none ps rest p hne (by simpa using hlen)
                  (lastTrueIdx_none_spec rest hr)]
            have : ¬(0 + 1 = (p :: ps).length) := by simp [hps]
            simp only [this, if_false]
            simp [hps]
        · simp [Bool.of_not_eq_true hb] at ht

/-!
## Walking a stored word (findword on an explicit path)
-/

theorem childOf_some (h : Heap) (r wch f c : Nat)
    (hco : childOf h r wch f = some c) :
    ∃ w, wTrie_child h (some r) wch f = some (some c, w, none) := by
  unfold childOf at hco
  cases hrun : wTrie_child h (some r) wch f with
  | none => rw [hrun] at hco; simp at hco
  | some out =>
    obtain ⟨res, w, e⟩ := out
    have he : e = none := wTrie_child_errno h r wch f (res, w, e) hrun
    subst he
    rw [hrun] at hco
    simp only at hco
    subst hco
    exact ⟨w, rfl⟩

theorem multiOf_some (h : Heap) (a : Nat) (b : Bool)
    (hmo : multiOf h a = some b) :
    wTrie_hasmultichild h (some a) = some (b, none) := by
  unfold multiOf at hmo
  unfold wTrie_hasmultichild at hmo ⊢
  cases hget : h.get a with
  | none => simp [hget] at hmo
  | some nd =>
    simp only [hget] at hmo ⊢
    cases hc : nd.child with
    | none =>
      simp only [hc] at hmo ⊢
      simp only [Option.some.injEq] at hmo
      rw [← hmo]
    | some c =>
      simp only [hc] at hmo ⊢
      cases hg2 : h.get c with
      | none => simp [hg2] at hmo
      | some cn =>
        simp only [hg2] at hmo ⊢
        simp only [Option.some.injEq] at hmo
        rw [← hmo]

theorem findword_cons_eq (h : Heap) (r c : Nat) (rest : List Nat) (f : Nat) :
    wTrie_findword h (some r) (c :: rest) f =
      if c = 0 then some (none, some WErr.emptyWord)
      else
        match wTrie_child h (some r) c f with
        | none => none
        | some (found, _, e1) =>
          match found with
          | none => some (none, ewSeq e1 (some WErr.noSuchWord))
          | some ca =>
            match h.get ca with
            | none => none
            | some cn =>
              if cn.term = true ∧ cAt rest 0 = 0 then some (some ca, e1)
              else if cAt rest 0 ≠ 0 then
                match wTrie_findword h (some ca) rest f with
                | none => none
                | some (r1, e2) => some (r1, ewSeq e1 e2)
              else some (none, ewSeq e1 (some WErr.noSuchWord)) := rfl

/-- Walking a stored word: if an explicit path of child steps exists whose
final node is terminal, `wTrie_findword` returns that final node with no
errno write. -/
theorem findword_of_walk (h : Heap) (F : Nat) :
    ∀ (ws ps : List Nat) (r G : Nat),
      ps ≠ [] → ps.length = ws.length →
      (∀ j, j < ws.length → cAt ws j ≠ 0) →
      (∀ j, j < ws.length →
        childOf h ((r :: ps).getD j 0) (cAt ws j) F = some (ps.getD j 0)) →
      (h.get (ps.getD (ps.length - 1) 0)).map WNode.term = some true →
      F ≤ G →
      wTrie_findword h (some r) ws G =
        some (some (ps.getD (ps.length - 1) 0), none) := by
  intro ws
  induction ws with
  | nil =>
    intro ps r G hne hlen _ _ _ _
    cases ps with
    | nil => exact absurd rfl hne
    | cons p ps => simp at hlen
  | cons c rest ih =>
    intro ps r G hne hlen hnz hwalk hterm hFG
    cases ps with
    | nil => exact absurd rfl hne
    | cons p ps =>
      have hc0 : c ≠ 0 := by simpa [cAt_cons_zero] using hnz 0 (by simp)
      have hstep : childOf h r c F = some p := by
        simpa [cAt_cons_zero] using hwalk 0 (by simp)
      obtain ⟨w, hchild⟩ := childOf_some h r c F p hstep
      have hchildG := wTrie_child_mono h (some r) c F G _ hFG hchild
      obtain ⟨pn, hgp, hwcp⟩ := wTrie_child_found h r c G p w none hchildG
      rw [findword_cons_eq]
      simp only [hc0, if_false, hchildG, hgp]
      cases hps : ps with
      | nil =>
        have hrest : rest = [] := by
          rw [hps] at hlen; simpa using hlen.symm
        subst hrest
        have ht : pn.term = true := by
          rw [hps] at hterm
          simp [hgp] at hterm
          exact hterm
        simp [ht, cAt_nil, hps]
      | cons p2 ps2 =>
        have hrestne : rest ≠ [] := by
          intro hr
          rw [hps, hr] at hlen
          simp at hlen
        obtain ⟨c2, rest2, hrest⟩ : ∃ c2 rest2, rest = c2 :: rest2 := by
          cases rest with
          | nil => exact absurd rfl hrestne
          | cons x y => exact ⟨x, y, rfl⟩
        have hcr0 : cAt rest 0 ≠ 0 := by
          have := hnz 1 (by simp [hrest])
          simpa [cAt_cons_succ] using this
        have hr2 := ih ps p G (by simp [hps]) (by rw [hps] at hlen ⊢; simpa using hlen)
          (fun j hj => by simpa [cAt_cons_succ] using hnz (j + 1) (by simpa using Nat.succ_lt_succ hj))
          (fun j hj => by
            have := hwalk (j + 1) (by simpa using Nat.succ_lt_succ hj)
            simpa [cAt_cons_succ] using this)
          (by
            rw [hps] at hterm ⊢
            have hlen2 : (p2 :: ps2).length - 1 + 1 = (p :: p2 :: ps2).length - 1 := by simp
            simpa using hterm)
          hFG
        have hnoterm : ¬(pn.term = true ∧ cAt rest 0 = 0) := by
          intro hx; exact hcr0 hx.2
        simp only [hnoterm, if_false, hcr0, ne_eq, not_false_iff, if_true, hr2]
        rw [hps]
        simp [ewSeq]

/-!
## The leaf-hunting loop on an explicit walk
-/

theorem leafLoop_zero (h : Heap) (ws : List Nat) (endn node leaf parent : Option Nat)
    (i : Nat) : leafLoop h ws endn node i leaf parent 0 = none := rfl

theorem leafLoop_succ (h : Heap) (ws : List Nat) (endn node leaf parent : Option Nat)
    (i f : Nat) :
    leafLoop h ws endn node i leaf parent (f + 1) =
      match wTrie_child h node (cAt ws i) f with
      | none => none
      | some (child, _, e1) =>
        if node = endn then
          match node with
          | none => none
          | some a =>
            match h.get a with
            | none => none
            | some nd =>
              if nd.child.isSome then some (none, none, e1)
              else some (leaf, parent, e1)
        else
          match wTrie_hasmultichild h child with
          | none => none
          | some (mc, e2) =>
            let lp : Option Nat × Option Nat :=
              if mc then (none, none)
              else ((if leaf = none then child else leaf),
                    (if parent = none then node else parent))
            match leafLoop h ws endn child (i + 1) lp.1 lp.2 f with
            | none => none
            | some (rl, rp, e3) => some (rl, rp, ewSeq (ewSeq e1 e2) e3) := rfl

theorem leafLoop_run (h : Heap) (ws : List Nat) (F : Nat) (e : Nat) (en : WNode)
    (hge : h.get e = some en) :
    ∀ (ps : List Nat) (bs : List Bool) (a i : Nat)
      (lp : Option Nat × Option Nat) (G : Nat),
      ps ≠ [] →
      bs.length = ps.length →
      ps.getD (ps.length - 1) 0 = e →
      (∀ j, j < ps.length → (a :: ps).getD j 0 ≠ e) →
      (∀ j, j < ps.length →
        childOf h ((a :: ps).getD j 0) (cAt ws (i + j)) F = some (ps.getD j 0)) →
      (∀ j, j < ps.length → multiOf h (ps.getD j 0) = some (bs.getD j false)) →
      (∃ x, wTrie_child h (some e) (cAt ws (i + ps.length)) F = some x) →
      F + ps.length + 1 ≤ G →
      accShape lp →
      leafLoop h ws (some e) (some a) i lp.1 lp.2 G =
        some ((if en.child.isSome then (none, none) else chainRun lp a ps bs).1,
              (if en.child.isSome then (none, none) else chainRun lp a ps bs).2,
              none) := by
  intro ps
  induction ps with
  | nil => intro bs a i lp G hne; exact absurd rfl hne
  | cons p ps ih =>
    intro bs a i lp G hne hbs hlast hnee hwalk hmc hfin hG hshape
    obtain ⟨g, rfl⟩ : ∃ g, G = g + 1 := ⟨G - 1, by omega⟩
    cases bs with
    | nil => simp at hbs
    | cons b bs =>
      have hstep : childOf h a (cAt ws i) F = some p := by
        simpa using hwalk 0 (by simp)
      obtain ⟨w, hchild⟩ := childOf_some h a (cAt ws i) F p hstep
      have hFg : F ≤ g := by simp at hG; omega
      have hchildg := wTrie_child_mono h (some a) (cAt ws i) F g _ hFg hchild
      have hae : ¬((some a : Option Nat) = some e) := by
        have := hnee 0 (by simp)
        simpa using this
      have hm0 : multiOf h p = some b := by simpa using hmc 0 (by simp)
      have hmulti := multiOf_some h p b hm0
      rw [leafLoop_succ]
      simp only [hchildg, if_neg hae, hmulti]
      have hacc : (if b then ((none : Option Nat), (none : Option Nat))
          else ((if lp.1 = none then some p else lp.1),
                (if lp.2 = none then some a else lp.2))) =
          chainAcc lp (some a) (some p) b := rfl
      cases hps : ps with
      | nil =>
        subst hps
        have hpe : p = e := by simpa using hlast
        subst hpe
        obtain ⟨g1, rfl⟩ : ∃ g1, g = g1 + 1 := ⟨g - 1, by simp at hG; omega⟩
        obtain ⟨x, hfinx⟩ := hfin
        obtain ⟨xr, xw, xe⟩ := x
        have hxe : xe = none :=
          wTrie_child_errno h p (cAt ws (i + [p].length)) F _ hfinx
        subst hxe
        have hfing : wTrie_child h (some p) (cAt ws (i + 1)) g1 =
            some (xr, xw, none) := by
          have hx : i + [p].length = i + 1 := rfl
          rw [hx] at hfinx
          exact wTrie_child_mono h (some p) (cAt ws (i + 1)) F g1 _
            (by simp at hG; omega) hfinx
        rw [leafLoop_succ]
        simp only [hfing, if_true, hge]
        cases hec : en.child with
        | none => simp [chainRun, chainAcc, ewSeq]
        | some ec => simp [chainRun, chainAcc, ewSeq]
      | cons p2 ps2 =>
        have hpsne : ps ≠ [] := by simp [hps]
        have ihr := ih bs p (i + 1) (chainAcc lp (some a) (some p) b) g
          hpsne
          (by simpa using hbs)
          (by
            have h1 : (p :: ps).getD ((p :: ps).length - 1) 0 =
                ps.getD (ps.length - 1) 0 := by rw [hps]; simp
            rw [← h1]; exact hlast)
          (fun j hj => by
            have := hnee (j + 1) (by simpa using Nat.succ_lt_succ hj)
            simpa using this)
          (fun j hj => by
            have := hwalk (j + 1) (by simpa using Nat.succ_lt_succ hj)
            have hidx : i + (j + 1) = (i + 1) + j := by omega
            rw [hidx] at this
            simpa using this)
          (fun j hj => by
            have := hmc (j + 1) (by simpa using Nat.succ_lt_succ hj)
            simpa using this)
          (by
            obtain ⟨x, hx⟩ := hfin
            have hidx : i + (p :: ps).length = (i + 1) + ps.length := by
              simp; omega
            rw [hidx] at hx
            exact ⟨x, hx⟩)
          (by simp at hG ⊢; omega)
          (accShape_chainAcc lp a p b hshape)
        rw [hacc, ihr]
        rw [chainRun]
        cases hec : en.child with
        | none => simp [ewSeq, hps]
        | some ec => simp [ewSeq, hps]

theorem leaf_some_eq (h : Heap) (r : Nat) (ws : List Nat) (wantParent : Bool)
    (f : Nat) :
    wTrie_leaf h (some r) ws wantParent f =
      if cAt ws 0 = 0 then some (none, none, some WErr.emptyWord)
      else
        match wTrie_findword h (some r) ws f with
        | none => none
        | some (endres, e0) =>
          match endres with
          | none => some (none, none, some WErr.noSuchWord)
          | some e =>
            match leafLoop h ws (some e) (some r) 0 none none f with
            | none => none
            | some (lf, par, e1) =>
              some (lf, (if wantParent then some par else none),
                    ewSeq e0 e1) := rfl

/-- Claim C2 (amended): for a stored word given by its walk (path `ps` of
distinct-from-endnode steps from root `r`, with per-node multi-child flags
`bs`), when the terminal node has children both outputs of `wTrie_leaf` are
absent; when it is childless the reported chain head is a node `ps[k]` on
the word's path whose reported parent is its path predecessor, every node
from the chain head to the terminal node has at most one child (flag false),
and the chain is maximal (either it starts at the first path node or the
node just before it has more than one child). -/
theorem c2_leaf_chain_characterization
    (h : Heap) (r : Nat) (ws ps : List Nat) (bs : List Bool)
    (e : Nat) (en : WNode) (F G : Nat)
    (hne : ps ≠ [])
    (hlen : ps.length = ws.length)
    (hnz : ∀ j, j < ws.length → cAt ws j ≠ 0)
    (hbs : bs.length = ps.length)
    (hend : ps.getD (ps.length - 1) 0 = e)
    (hgete : h.get e = some en)
    (hterm : en.term = true)
    (hdist : ∀ j, j < ps.length → (r :: ps).getD j 0 ≠ e)
    (hwalk : ∀ j, j < ws.length →
      childOf h ((r :: ps).getD j 0) (cAt ws j) F = some (ps.getD j 0))
    (hmc : ∀ j, j < ps.length → multiOf h (ps.getD j 0) = some (bs.getD j false))
    (hfin : ∃ x, wTrie_child h (some e) 0 F = some x)
    (hG : F + ps.length + 2 ≤ G) :
    (en.child.isSome = true →
      wTrie_leaf h (some r) ws true G = some (none, some none, none)) ∧
    (en.child = none →
      ∃ k, k < ps.length ∧
        wTrie_leaf h (some r) ws true G =
          some (some (ps.getD k 0), some (some ((r :: ps).getD k 0)), none) ∧
        (∀ j, k ≤ j → j < ps.length → bs.getD j false = false) ∧
        (k = 0 ∨ bs.getD (k - 1) false = true)) := by
  have hwsne : ws ≠ [] := by
    intro hw
    rw [hw] at hlen
    cases ps with
    | nil => exact hne rfl
    | cons p ps2 => simp at hlen
  have hws0 : cAt ws 0 ≠ 0 := by
    apply hnz 0
    cases ws with
    | nil => exact absurd rfl hwsne
    | cons c rest => simp
  have htermmap : (h.get (ps.getD (ps.length - 1) 0)).map WNode.term =
      some true := by rw [hend, hgete]; simp [hterm]
  have hfind := findword_of_walk h F ws ps r G hne hlen hnz hwalk htermmap
    (by omega)
  have hloop := leafLoop_run h ws F e en hgete ps bs r 0 (none, none) G hne hbs
    hend hdist
    (fun j hj => by simpa using hwalk j (by omega))
    hmc
    (by
      obtain ⟨x, hx⟩ := hfin
      refine ⟨x, ?_⟩
      have hz : cAt ws (0 + ps.length) = 0 := by
        rw [Nat.zero_add, hlen, cAt_length]
      rw [hz]
      exact hx)
    (by omega)
    (Or.inl rfl)
  rw [leaf_some_eq]
  simp only [hws0, if_false, hfind, hend]
  constructor
  · intro hc
    simp only [hc] at hloop
    rw [hloop]
    simp [ewSeq]
  · intro hc
    have hc2 : en.child.isSome = false := by simp [hc]
    simp only [hc2] at hloop
    simp only [Bool.false_eq_true, if_false] at hloop
    cases hlt : lastTrueIdx bs with
    | none =>
      have hrun := chainRun_allfalse_none ps bs r hne hbs.symm
        (lastTrueIdx_none_spec bs hlt)
      rw [hrun] at hloop
      refine ⟨0, by
        cases ps with
        | nil => exact absurd rfl hne
        | cons p ps => simp, ?_, ?_, Or.inl rfl⟩
      · rw [hloop]
        simp [ewSeq]
      · intro j _ hj
        exact lastTrueIdx_none_spec bs hlt j (by omega)
    | some t =>
      obtain ⟨ht1, ht2, ht3⟩ := lastTrueIdx_some_spec bs t hlt
      have hblast : bs.getD (ps.length - 1) false = false := by
        have hmlast := hmc (ps.length - 1) (by
          cases ps with
          | nil => exact absurd rfl hne
          | cons p ps => simp)
        rw [hend] at hmlast
        have : multiOf h e = some false := by
          simp [multiOf, wTrie_hasmultichild, hgete, hc]
        rw [this] at hmlast
        exact (Option.some.injEq .. ▸ hmlast).symm
      have htne : ¬(t + 1 = ps.length) := by
        intro hteq
        have : t = ps.length - 1 := by omega
        rw [← this] at hblast
        rw [hblast] at ht2
        exact Bool.false_ne_true ht2
      have hrun := chainRun_lastTrue ps bs t r (none, none) hbs.symm
        (Or.inl rfl) hlt
      rw [hrun] at hloop
      simp only [htne, if_false] at hloop
      refine ⟨t + 1, by omega, ?_, ?_, Or.inr (by simpa using ht2)⟩
      · rw [hloop]
        simp [ewSeq]
      · intro j hj1 hj2
        exact ht3 j (by omega) (by omega)

/-- Witness: the chain characterization applied to the heap holding "dog"
and "do", for the word "dog" (walk 1-2-3, no branching anywhere): the chain
head is node 1 with parent the root. -/
theorem c2_leaf_chain_characterization_witness :
    ∃ k, k < ([1, 2, 3] : List Nat).length ∧
      wTrie_leaf h_dog_do (some 0) dogW true 20 =
        some (some (([1, 2, 3] : List Nat).getD k 0),
              some (some ((0 :: [1, 2, 3] : List Nat).getD k 0)), none) ∧
      (∀ j, k ≤ j → j < ([1, 2, 3] : List Nat).length →
        ([false, false, false] : List Bool).getD j false = false) ∧
      (k = 0 ∨ ([false, false, false] : List Bool).getD (k - 1) false = true) :=
  (c2_leaf_chain_characterization h_dog_do 0 dogW [1, 2, 3]
      [false, false, false] 3 ⟨103, none, none, true, none⟩ 10 20
      (by decide) (by decide) (by decide) (by decide) (by decide) (by decide)
      (by decide) (by decide) (by decide) (by decide)
      ⟨(none, none, none), by decide⟩ (by decide)).2 rfl

/-!
## Insertion (C5): step lemmas and helpers
-/

theorem spawn_some_eq (h : Heap) (strict : Bool) (p wch : Nat) (term : Bool)
    (meta : Option Nat) (msz f : Nat) :
    wTrie_spawn h strict (some p) wch term meta msz f =
      match wTrie_child h (some p) wch f with
      | none => none
      | some (found, _, _) =>
        match found with
        | none =>
          match h.get p with
          | none => none
          | some pn =>
            let im := initMeta meta msz
            let al := Heap.alloc h ⟨wch, pn.child, none, term, im.1⟩
            some ((al.1).set p ⟨pn.wc, pn.sibling, some al.2, pn.term, pn.meta⟩,
                  some al.2, im.2)
        | some c =>
          if strict then some (h, none, some WErr.dupChild)
          else
            match h.get c with
            | none => none
            | some cn =>
              some (h.set c ⟨cn.wc, cn.sibling, cn.child, term, meta⟩,
                    some c, none) := rfl

theorem addwordT_cons_eq (h : Heap) (r c : Nat) (rest : List Nat) (f : Nat) :
    wTrie_addwordT h (some r) (c :: rest) f =
      if c = 0 then some (h, none, some WErr.emptyWord, [])
      else if cAt rest 0 ≠ 0 then
        match wTrie_spawn h false (some r) c false none 0 f with
        | none => none
        | some (h1, nw, e1) =>
          match wTrie_addwordT h1 nw rest f with
          | none => none
          | some (h2, res, e2, tr) =>
            some (h2, res, ewSeq e1 e2,
                  (match nw with | some a => a :: tr | none => tr))
      else
        match wTrie_spawn h false (some r) c true none 0 f with
        | none => none
        | some (h1, res, e1) =>
          some (h1, res, e1,
                (match res with | some a => [a] | none => [])) := rfl

theorem wTrie_child_some_pos (h : Heap) (p wch G : Nat)
    (out : Option Nat × Option (Option Nat) × EW)
    (hrun : wTrie_child h (some p) wch G = some out) : 1 ≤ G := by
  cases G with
  | zero =>
    rw [child_some_eq] at hrun
    cases hget : h.get p with
    | none => simp [hget] at hrun
    | some pn => simp [hget, childLoop_zero] at hrun
  | succ g => omega

theorem wTrie_child_decomp (h : Heap) (p wch G : Nat) (pn : WNode)
    (found : Option Nat) (w : Option (Option Nat)) (e : EW)
    (hgr : h.get p = some pn)
    (hch : wTrie_child h (some p) wch G = some (found, w, e)) :
    wTrie_childLoop h pn.child pn.child wch none G = some (found, w) ∧
      e = none := by
  rw [child_some_eq] at hch
  simp only [hgr] at hch
  cases hloop : wTrie_childLoop h pn.child pn.child wch none G with
  | none => simp [hloop] at hch
  | some lo =>
    obtain ⟨res, wv⟩ := lo
    simp only [hloop, Option.some.injEq, Prod.mk.injEq] at hch
    obtain ⟨h1, h2, h3⟩ := hch
    subst h1; subst h2; subst h3
    exact ⟨rfl, rfl⟩

theorem wTrie_child_comp (h : Heap) (p wch G : Nat) (pn : WNode)
    (found : Option Nat) (w : Option (Option Nat))
    (hgr : h.get p = some pn)
    (hloop : wTrie_childLoop h pn.child pn.child wch none G = some (found, w)) :
    wTrie_child h (some p) wch G = some (found, w, none) := by
  rw [child_some_eq]
  simp only [hgr, hloop]

theorem wTrie_child_head_match (h1 : Heap) (r nx wch g : Nat) (rn1 nd1 : WNode)
    (hg : h1.get r = some rn1) (hchild : rn1.child = some nx)
    (hgn : h1.get nx = some nd1) (hwc : nd1.wc = wch) :
    wTrie_child h1 (some r) wch (g + 1) = some (some nx, some none, none) := by
  apply wTrie_child_comp h1 r wch (g + 1) rn1 (some nx) (some none) hg
  rw [hchild, childLoop_cons]
  simp [hgn, hwc]

theorem push_get (h : Heap) (r : Nat) (rn nd : WNode) (hw : wfH h)
    (hgr : h.get r = some rn) (a : Nat) :
    (((h.alloc nd).1).set r
        ⟨rn.wc, rn.sibling, some h.next, rn.term, rn.meta⟩).get a =
      if a = r then some ⟨rn.wc, rn.sibling, some h.next, rn.term, rn.meta⟩
      else if a = h.next then some nd else h.get a := by
  rw [Heap.get_set, Heap.get_alloc]
  have hrn : r ≠ h.next := by have := hw r rn hgr; omega
  by_cases har : a = r
  · subst har; simp [hrn, hgr]
  · simp [har, Heap.get_alloc]

theorem spawn_nonstrict_cases (h : Heap) (r wch G : Nat) (tm : Bool)
    (h1 : Heap) (nw : Option Nat) (e1 : EW)
    (hsp : wTrie_spawn h false (some r) wch tm none 0 G = some (h1, nw, e1)) :
    ∃ rn, h.get r = some rn ∧ 1 ≤ G ∧
      ((∃ w, wTrie_child h (some r) wch G = some (none, w, none) ∧
         nw = some h.next ∧ e1 = none ∧
         h1 = ((h.alloc ⟨wch, rn.child, none, tm, none⟩).1).set r
                ⟨rn.wc, rn.sibling, some h.next, rn.term, rn.meta⟩) ∨
       (∃ c0 w cn, wTrie_child h (some r) wch G = some (some c0, w, none) ∧
         h.get c0 = some cn ∧ cn.wc = wch ∧ nw = some c0 ∧ e1 = none ∧
         h1 = h.set c0 ⟨cn.wc, cn.sibling, cn.child, tm, none⟩)) := by
  rw [spawn_some_eq] at hsp
  cases hch : wTrie_child h (some r) wch G with
  | none => rw [hch] at hsp; simp at hsp
  | some out =>
    obtain ⟨found, w, e⟩ := out
    have he : e = none := wTrie_child_errno h r wch G _ hch
    subst he
    have hpos := wTrie_child_some_pos h r wch G _ hch
    rw [hch] at hsp
    cases found with
    | none =>
      cases hgr : h.get r with
      | none => rw [hgr] at hsp; simp at hsp
      | some rn =>
        rw [hgr] at hsp
        simp only [Option.some.injEq, Prod.mk.injEq] at hsp
        obtain ⟨hh, hnw, he1⟩ := hsp
        refine ⟨rn, rfl, hpos, Or.inl ⟨w, rfl, hnw.symm, he1.symm, ?_⟩⟩
        rw [← hh]
        rfl
    | some c0 =>
      obtain ⟨cn, hgc, hwcc⟩ := wTrie_child_found h r wch G c0 w none hch
      cases hgr : h.get r with
      | none =>
        exfalso
        rw [child_some_eq] at hch
        rw [hgr] at hch
        simp at hch
      | some rn =>
        simp only [if_false, Bool.false_eq_true] at hsp
        rw [hgc] at hsp
        simp only [Option.some.injEq, Prod.mk.injEq] at hsp
        obtain ⟨hh, hnw, he1⟩ := hsp
        exact ⟨rn, rfl, hpos,
          Or.inr ⟨c0, w, cn, rfl, hgc, hwcc, hnw.symm, he1.symm, hh.symm⟩⟩

/-- The effect of one `wTrie_addword` run, stated over the list `tr` of
nodes its spawns returned: the trace walks the word, every visited node ends
with the matching character, no meta and terminal flag set exactly on the
last one; nodes off the trace are untouched; shapes of old nodes (wc,
sibling) are preserved; the word can be re-walked in the final heap; the
root keeps everything but its child pointer; well-formedness is kept. -/
theorem addwordT_master :
    ∀ (ws : List Nat) (h : Heap) (r : Nat) (hend : Heap) (res : Option Nat)
      (ew : EW) (tr : List Nat) (G : Nat),
      wTrie_addwordT h (some r) ws G = some (hend, res, ew, tr) →
      ws ≠ [] →
      (∀ j, j < ws.length → cAt ws j ≠ 0) →
      wfH h →
      (r :: tr).Nodup →
      (tr.length = ws.length ∧ res = some (tr.getD (tr.length - 1) 0)) ∧
      oldPres h hend ∧
      (∀ a, a ≠ r → a ∉ tr → hend.get a = h.get a) ∧
      (∀ j, j < tr.length → ∃ nd, hend.get (tr.getD j 0) = some nd ∧
        nd.wc = cAt ws j ∧ nd.meta = none ∧
        (j < tr.length - 1 → nd.term = false) ∧
        (j = tr.length - 1 → nd.term = true)) ∧
      (∀ j, j < tr.length → ∃ x, wTrie_child hend (some ((r :: tr).getD j 0))
        (cAt ws j) G = some (some (tr.getD j 0), x, none)) ∧
      (∃ rn rn1, h.get r = some rn ∧ hend.get r = some rn1 ∧
        rn1.wc = rn.wc ∧ rn1.sibling = rn.sibling ∧ rn1.term = rn.term ∧
        rn1.meta = rn.meta) ∧
      wfH hend := by
  intro ws
  induction ws with
  | nil => intro h r hend res ew tr G hrun hne hnz hwf hnd; exact absurd rfl hne
  | cons c rest ih =>
    intro h r hend res ew tr G hrun hne hnz hwf hnd
    have hc0 : ¬(c = 0) := by simpa [cAt_cons_zero] using hnz 0 (by simp)
    rw [addwordT_cons_eq, if_neg hc0] at hrun
    cases rest with
    | nil =>
      rw [if_neg (by simp [cAt_nil] : ¬(cAt ([] : List Nat) 0 ≠ 0))] at hrun
      cases hsp : wTrie_spawn h false (some r) c true none 0 G with
      | none => simp [hsp] at hrun
      | some out =>
        obtain ⟨h1, res1, e1⟩ := out
        simp only [hsp, Option.some.injEq, Prod.mk.injEq] at hrun
        obtain ⟨hh, hres, hew, htr⟩ := hrun
        subst hh
        obtain ⟨rn, hgr, hpos, hcases⟩ :=
          spawn_nonstrict_cases h r c G true h1 res1 e1 hsp
        rcases hcases with ⟨w, hch, hnw, he1, hheap⟩ |
          ⟨c0, w, cn, hch, hgc, hwcc, hnw, he1, hheap⟩
        · -- last character, fresh node pushed at the head
          subst hnw
          have htr2 : tr = [h.next] := by rw [← htr]
          subst htr2
          have hget1 := fun a =>
            hheap ▸ push_get h r rn ⟨c, rn.child, none, true, none⟩ hwf hgr a
          have hrnx : r ≠ h.next := by have := hwf r rn hgr; omega
          refine ⟨⟨by simp, by simp [← hres]⟩, ?_, ?_, ?_, ?_, ?_, ?_⟩
          · intro a nda hga
            have hax : a ≠ h.next := by have := hwf a nda hga; omega
            rw [hget1 a]
            by_cases har : a = r
            · subst har
              rw [hgr] at hga
              cases hga
              exact ⟨⟨rn.wc, rn.sibling, some h.next, rn.term, rn.meta⟩,
                by simp, rfl, rfl⟩
            · simp only [har, if_false, hax, if_false]
              exact ⟨nda, hga, rfl, rfl⟩
          · intro a har hmem
            have hax : a ≠ h.next := by simpa using hmem
            rw [hget1 a]
            simp [har, hax]
          · intro j hj
            have hj0 : j = 0 := by simpa using hj
            subst hj0
            refine ⟨⟨c, rn.child, none, true, none⟩, ?_, rfl, rfl,
              (fun hx => absurd hx (by simp)), fun _ => rfl⟩
            show h1.get h.next = some ⟨c, rn.child, none, true, none⟩
            rw [hget1 h.next]
            simp [Ne.symm hrnx]
          · intro j hj
            have hj0 : j = 0 := by simpa using hj
            subst hj0
            obtain ⟨g, rfl⟩ : ∃ g, G = g + 1 := ⟨G - 1, by omega⟩
            refine ⟨some none, ?_⟩
            apply wTrie_child_head_match h1 r h.next c g
              ⟨rn.wc, rn.sibling, some h.next, rn.term, rn.meta⟩
              ⟨c, rn.child, none, true, none⟩
            · rw [hget1 r]; simp
            · rfl
            · rw [hget1 h.next]; simp [Ne.symm hrnx]
            · rfl
          · refine ⟨rn, ⟨rn.wc, rn.sibling, some h.next, rn.term, rn.meta⟩,
              hgr, ?_, rfl, rfl, rfl, rfl⟩
            rw [hget1 r]; simp
          · rw [hheap]
            exact wfH_set _ _ _ (wfH_alloc h _ hwf)
        · -- last character, existing child overwritten in place
          subst hnw
          have htr2 : tr = [c0] := by rw [← htr]
          subst htr2
          have hrc0 : r ≠ c0 := by
            have := hnd
            simp [List.nodup_cons] at this
            exact this
          have hget1 : ∀ a, h1.get a =
              if a = c0 then some ⟨cn.wc, cn.sibling, cn.child, true, none⟩
              else h.get a := by
            intro a
            rw [hheap, Heap.get_set]
            by_cases hac : a = c0
            · subst hac; simp [hgc]
            · simp [hac]
          have hopr : oldPres h h1 := by
            intro a nda hga
            rw [hget1 a]
            by_cases hac : a = c0
            · subst hac
              rw [hgc] at hga
              cases hga
              exact ⟨⟨cn.wc, cn.sibling, cn.child, true, none⟩,
                by simp, rfl, rfl⟩
            · simp only [hac, if_false]
              exact ⟨nda, hga, rfl, rfl⟩
          refine ⟨⟨by simp, by simp [← hres]⟩, hopr, ?_, ?_, ?_, ?_, ?_⟩
          · intro a har hmem
            have hac : a ≠ c0 := by simpa using hmem
            rw [hget1 a]
            simp [hac]
          · intro j hj
            have hj0 : j = 0 := by simpa using hj
            subst hj0
            refine ⟨⟨cn.wc, cn.sibling, cn.child, true, none⟩, ?_,
              by simpa using hwcc, rfl, (fun hx => absurd hx (by simp)),
              fun _ => rfl⟩
            show h1.get c0 = some ⟨cn.wc, cn.sibling, cn.child, true, none⟩
            rw [hget1 c0]
            simp
          · intro j hj
            have hj0 : j = 0 := by simpa using hj
            subst hj0
            obtain ⟨hloop, -⟩ :=
              wTrie_child_decomp h r c G rn (some c0) w none hgr hch
            refine ⟨w, ?_⟩
            apply wTrie_child_comp h1 r c G rn (some c0) w
            · rw [hget1 r]; simp [hrc0, hgr]
            · exact wTrie_childLoop_pres h h1 hopr rn.child c G rn.child none
                (some c0, w) hloop
          · refine ⟨rn, rn, hgr, ?_, rfl, rfl, rfl, rfl⟩
            rw [hget1 r]; simp [hrc0, hgr]
          · rw [hheap]
            exact wfH_set _ _ _ hwf
    | cons c2 rest2 =>
      rw [if_pos (by simpa [cAt_cons_zero] using hnz 1 (by simp) :
        cAt (c2 :: rest2) 0 ≠ 0)] at hrun
      cases hsp : wTrie_spawn h false (some r) c false none 0 G with
      | none => simp [hsp] at hrun
      | some out =>
        obtain ⟨h1, nw, e1⟩ := out
        cases hadd : wTrie_addwordT h1 nw (c2 :: rest2) G with
        | none => simp [hsp, hadd] at hrun
        | some out2 =>
          obtain ⟨h2, res2, e2, tr2⟩ := out2
          simp only [hsp, hadd, Option.some.injEq, Prod.mk.injEq] at hrun
          obtain ⟨hh, hres, hew, htr⟩ := hrun
          subst hh
          obtain ⟨rn, hgr, hpos, hcases⟩ :=
            spawn_nonstrict_cases h r c G false h1 nw e1 hsp
          rcases hcases with ⟨w, hch, hnw, he1, hheap⟩ |
            ⟨c0, w, cn, hch, hgc, hwcc, hnw, he1, hheap⟩
          · -- inner character, fresh node pushed at the head
            subst hnw
            have htr2 : tr = h.next :: tr2 := by rw [← htr]
            subst htr2
            have hrnx : r ≠ h.next := by have := hwf r rn hgr; omega
            have hndfacts : r ∉ (h.next :: tr2) ∧ (h.next :: tr2).Nodup := by
              simpa [List.nodup_cons] using hnd
            have hget1 := fun a =>
              hheap ▸ push_get h r rn ⟨c, rn.child, none, false, none⟩ hwf hgr a
            have hwf1 : wfH h1 := by
              rw [hheap]; exact wfH_set _ _ _ (wfH_alloc h _ hwf)
            obtain ⟨hQ1, hQ2, hQ3, hQ4, hQ5, hQ6, hQ7⟩ :=
              ih h1 h.next h2 res2 e2 tr2 G hadd (by simp)
                (fun j hj => by
                  simpa [cAt_cons_succ] using
                    hnz (j + 1) (by simpa using Nat.succ_lt_succ hj))
                hwf1 hndfacts.2
            have hrtr2 : r ∉ tr2 := fun hx => hndfacts.1 (by simp [hx])
            have hgetr : h2.get r =
                some ⟨rn.wc, rn.sibling, some h.next, rn.term, rn.meta⟩ := by
              rw [hQ3 r hrnx hrtr2, hget1 r]; simp
            obtain ⟨nd0, nd1, hq60, hq61, hq6wc, hq6sib, hq6term, hq6meta⟩ := hQ6
            have hnd0 : nd0 = ⟨c, rn.child, none, false, none⟩ := by
              have hx := hget1 h.next
              simp only [Ne.symm hrnx, if_false, if_pos rfl] at hx
              rw [hx] at hq60
              exact (Option.some.injEq .. ▸ hq60).symm
            subst hnd0
            have htr2len : tr2.length = rest2.length + 1 := by simpa using hQ1.1
            refine ⟨⟨by simp [htr2len], ?_⟩, ?_, ?_, ?_, ?_, ?_, hQ7⟩
            · rw [← hres, hQ1.2]
              obtain ⟨m, hm⟩ : ∃ m, tr2.length = m + 1 := ⟨rest2.length, htr2len⟩
              simp [hm]
            · refine oldPres_trans h h1 h2 ?_ hQ2
              intro a nda hga
              have hax : a ≠ h.next := by have := hwf a nda hga; omega
              rw [hget1 a]
              by_cases har : a = r
              · subst har
                rw [hgr] at hga
                cases hga
                exact ⟨⟨rn.wc, rn.sibling, some h.next, rn.term, rn.meta⟩,
                  by simp, rfl, rfl⟩
              · simp only [har, if_false, hax, if_false]
                exact ⟨nda, hga, rfl, rfl⟩
            · intro a har hmem
              have hax : a ≠ h.next := by intro hx; exact hmem (by simp [hx])
              have hat : a ∉ tr2 := fun hx => hmem (by simp [hx])
              rw [hQ3 a hax hat, hget1 a]
              simp [har, hax]
            · intro j hj
              cases j with
              | zero =>
                refine ⟨nd1, by simpa using hq61, ?_, ?_, fun _ => ?_, ?_⟩
                · rw [hq6wc]; rfl
                · rw [hq6meta]
                · rw [hq6term]
                · intro hx
                  exfalso
                  simp [htr2len] at hx
              | succ j =>
                obtain ⟨nd, hq, hwcq, hmq, htf, htt⟩ :=
                  hQ4 j (by simpa [htr2len] using hj)
                refine ⟨nd, by simpa using hq,
                  by simpa [cAt_cons_succ] using hwcq, hmq, ?_, ?_⟩
                · intro hx
                  exact htf (by simp at hx ⊢; omega)
                · intro hx
                  exact htt (by simp at hx ⊢; omega)
            · intro j hj
              cases j with
              | zero =>
                obtain ⟨g, rfl⟩ : ∃ g, G = g + 1 := ⟨G - 1, by omega⟩
                refine ⟨some none, ?_⟩
                apply wTrie_child_head_match h2 r h.next c g
                  ⟨rn.wc, rn.sibling, some h.next, rn.term, rn.meta⟩ nd1 hgetr rfl
                  (by simpa using hq61)
                rw [hq6wc]
              | succ j =>
                obtain ⟨x, hx⟩ := hQ5 j (by simpa [htr2len] using hj)
                refine ⟨x, ?_⟩
                simpa [cAt_cons_succ] using hx
            · exact ⟨rn, ⟨rn.wc, rn.sibling, some h.next, rn.term, rn.meta⟩,
                hgr, hgetr, rfl, rfl, rfl, rfl⟩
          · -- inner character, existing child overwritten in place
            subst hnw
            have htr2 : tr = c0 :: tr2 := by rw [← htr]
            subst htr2
            have hndfacts : r ∉ (c0 :: tr2) ∧ (c0 :: tr2).Nodup := by
              simpa [List.nodup_cons] using hnd
            have hrc0 : r ≠ c0 := fun hx => hndfacts.1 (by simp [hx])
            have hrtr2 : r ∉ tr2 := fun hx => hndfacts.1 (by simp [hx])
            have hget1 : ∀ a, h1.get a =
                if a = c0 then some ⟨cn.wc, cn.sibling, cn.child, false, none⟩
                else h.get a := by
              intro a
              rw [hheap, Heap.get_set]
              by_cases hac : a = c0
              · subst hac; simp [hgc]
              · simp [hac]
            have hwf1 : wfH h1 := by rw [hheap]; exact wfH_set _ _ _ hwf
            have hopr1 : oldPres h h1 := by
              intro a nda hga
              rw [hget1 a]
              by_cases hac : a = c0
              · subst hac
                rw [hgc] at hga
                cases hga
                exact ⟨⟨cn.wc, cn.sibling, cn.child, false, none⟩,
                  by simp, rfl, rfl⟩
              · simp only [hac, if_false]
                exact ⟨nda, hga, rfl, rfl⟩
            obtain ⟨hQ1, hQ2, hQ3, hQ4, hQ5, hQ6, hQ7⟩ :=
              ih h1 c0 h2 res2 e2 tr2 G hadd (by simp)
                (fun j hj => by
                  simpa [cAt_cons_succ] using
                    hnz (j + 1) (by simpa using Nat.succ_lt_succ hj))
                hwf1 hndfacts.2
            have hopr : oldPres h h2 := oldPres_trans h h1 h2 hopr1 hQ2
            have hgetr : h2.get r = some rn := by
              rw [hQ3 r hrc0 hrtr2, hget1 r]
              simp [hrc0, hgr]
            obtain ⟨nd0, nd1, hq60, hq61, hq6wc, hq6sib, hq6term, hq6meta⟩ := hQ6
            have hnd0 : nd0 = ⟨cn.wc, cn.sibling, cn.child, false, none⟩ := by
              have hx := hget1 c0
              simp only [if_pos rfl] at hx
              rw [hx] at hq60
              exact (Option.some.injEq .. ▸ hq60).symm
            subst hnd0
            have htr2len : tr2.length = rest2.length + 1 := by simpa using hQ1.1
            refine ⟨⟨by simp [htr2len], ?_⟩, hopr, ?_, ?_, ?_, ?_, hQ7⟩
            · rw [← hres, hQ1.2]
              obtain ⟨m, hm⟩ : ∃ m, tr2.length = m + 1 := ⟨rest2.length, htr2len⟩
              simp [hm]
            · intro a har hmem
              have hac : a ≠ c0 := fun hx => hmem (by simp [hx])
              have hat : a ∉ tr2 := fun hx => hmem (by simp [hx])
              rw [hQ3 a hac hat, hget1 a]
              simp [hac]
            · intro j hj
              cases j with
              | zero =>
                refine ⟨nd1, by simpa using hq61, ?_, ?_, fun _ => ?_, ?_⟩
                · rw [hq6wc]; simpa using hwcc
                · rw [hq6meta]
                · rw [hq6term]
                · intro hx
                  exfalso
                  simp [htr2len] at hx
              | succ j =>
                obtain ⟨nd, hq, hwcq, hmq, htf, htt⟩ :=
                  hQ4 j (by simpa [htr2len] using hj)
                refine ⟨nd, by simpa using hq,
                  by simpa [cAt_cons_succ] using hwcq, hmq, ?_, ?_⟩
                · intro hx
                  exact htf (by simp at hx ⊢; omega)
                · intro hx
                  exact htt (by simp at hx ⊢; omega)
            · intro j hj
              cases j with
              | zero =>
                obtain ⟨hloop, -⟩ :=
                  wTrie_child_decomp h r c G rn (some c0) w none hgr hch
                refine ⟨w, ?_⟩
                apply wTrie_child_comp h2 r c G rn (some c0) w hgetr
                exact wTrie_childLoop_pres h h2 hopr rn.child c G rn.child none
                  (some c0, w) hloop
              | succ j =>
                obtain ⟨x, hx⟩ := hQ5 j (by simpa [htr2len] using hj)
                refine ⟨x, ?_⟩
                simpa [cAt_cons_succ] using hx
            · exact ⟨rn, rn, hgr, hgetr, rfl, rfl, rfl, rfl⟩

theorem storeGet_mem :
    ∀ (es : List (Nat × WNode)) (a : Nat) (nd : WNode),
      storeGet es a = some nd → (a, nd) ∈ es := by
  intro es
  induction es with
  | nil => intro a nd hget; simp [storeGet] at hget
  | cons e es ih =>
    intro a nd hget
    obtain ⟨k, v⟩ := e
    rw [storeGet] at hget
    by_cases hak : a = k
    · subst hak
      simp at hget
      subst hget
      simp
    · simp only [hak, if_false] at hget
      exact List.mem_cons_of_mem _ (ih a nd hget)

theorem wfH_of_keys (h : Heap) (hk : ∀ p ∈ h.store, p.1 < h.next) : wfH h :=
  fun a nd hget => hk (a, nd) (storeGet_mem h.store a nd hget)

/-- Walking an unstored word: a full path whose final node is non-terminal
makes `wTrie_findword` fail with NoSuchWord. -/
theorem findword_notterm (h : Heap) (F : Nat) :
    ∀ (ws ps : List Nat) (r G : Nat),
      ps ≠ [] → ps.length = ws.length →
      (∀ j, j < ws.length → cAt ws j ≠ 0) →
      (∀ j, j < ws.length →
        childOf h ((r :: ps).getD j 0) (cAt ws j) F = some (ps.getD j 0)) →
      (h.get (ps.getD (ps.length - 1) 0)).map WNode.term = some false →
      F ≤ G →
      wTrie_findword h (some r) ws G = some (none, some WErr.noSuchWord) := by
  intro ws
  induction ws with
  | nil =>
    intro ps r G hne hlen _ _ _ _
    cases ps with
    | nil => exact absurd rfl hne
    | cons p ps => simp at hlen
  | cons c rest ih =>
    intro ps r G hne hlen hnz hwalk hterm hFG
    cases ps with
    | nil => exact absurd rfl hne
    | cons p ps =>
      have hc0 : c ≠ 0 := by simpa [cAt_cons_zero] using hnz 0 (by simp)
      have hstep : childOf h r c F = some p := by
        simpa [cAt_cons_zero] using hwalk 0 (by simp)
      obtain ⟨w, hchild⟩ := childOf_some h r c F p hstep
      have hchildG := wTrie_child_mono h (some r) c F G _ hFG hchild
      obtain ⟨pn, hgp, hwcp⟩ := wTrie_child_found h r c G p w none hchildG
      rw [findword_cons_eq]
      simp only [hc0, if_false, hchildG, hgp]
      cases hps : ps with
      | nil =>
        have hrest : rest = [] := by
          rw [hps] at hlen; simpa using hlen.symm
        subst hrest
        have ht : pn.term = false := by
          rw [hps] at hterm
          simp [hgp] at hterm
          exact hterm
        have hno : ¬(pn.term = true ∧ cAt ([] : List Nat) 0 = 0) := by
          intro hx
          rw [ht] at hx
          exact Bool.false_ne_true hx.1
        simp [hno, cAt_nil, ewSeq, ht]
      | cons p2 ps2 =>
        have hrestne : rest ≠ [] := by
          intro hr
          rw [hps, hr] at hlen
          simp at hlen
        obtain ⟨c2, rest2, hrest⟩ : ∃ c2 rest2, rest = c2 :: rest2 := by
          cases rest with
          | nil => exact absurd rfl hrestne
          | cons x y => exact ⟨x, y, rfl⟩
        have hcr0 : cAt rest 0 ≠ 0 := by
          have := hnz 1 (by simp [hrest])
          simpa [cAt_cons_succ] using this
        have hr2 := ih ps p G (by simp [hps])
          (by rw [hps] at hlen ⊢; simpa using hlen)
          (fun j hj => by
            simpa [cAt_cons_succ] using hnz (j + 1) (by simpa using Nat.succ_lt_succ hj))
          (fun j hj => by
            have := hwalk (j + 1) (by simpa using Nat.succ_lt_succ hj)
            simpa [cAt_cons_succ] using this)
          (by
            rw [hps] at hterm ⊢
            simpa using hterm)
          hFG
        have hnoterm : ¬(pn.term = true ∧ cAt rest 0 = 0) := by
          intro hx; exact hcr0 hx.2
        simp only [hnoterm, if_false, hcr0, ne_eq, not_false_iff, if_true, hr2]
        simp [ewSeq]

theorem cAt_append (w u : List Nat) :
    ∀ j, j < w.length → cAt (w ++ u) j = cAt w j := by
  induction w with
  | nil => intro j hj; simp at hj
  | cons a w ih =>
    intro j hj
    cases j with
    | zero => rfl
    | succ j => simpa [cAt_cons_succ] using ih j (by simpa using hj)

theorem getD_take (tr : List Nat) :
    ∀ (k j : Nat), j < k → (tr.take k).getD j 0 = tr.getD j 0 := by
  induction tr with
  | nil => intro k j _; simp
  | cons t tr ih =>
    intro k j hj
    cases k with
    | zero => omega
    | succ k =>
      cases j with
      | zero => simp
      | succ j => simpa using ih k j (by omega)

/-- Claim C5: inserting a word `w ++ u` spawns every non-final character
non-strict with terminal flag 0 and meta NULL, overwriting the stored
prefix `w`'s terminal node in place; afterwards `w`'s end node is
non-terminal with no payload and `wTrie_findword` fails on `w` with
NoSuchWord. -/
theorem c5_addword_clears_prefix_terminal
    (h : Heap) (r : Nat) (w u : List Nat) (F G : Nat)
    (hend : Heap) (res : Option Nat) (ew : EW) (tr : List Nat)
    (hw : w ≠ []) (hu : u ≠ [])
    (hnz : ∀ j, j < (w ++ u).length → cAt (w ++ u) j ≠ 0)
    (hwf : wfH h)
    (hrun : wTrie_addwordT h (some r) (w ++ u) G = some (hend, res, ew, tr))
    (hnd : (r :: tr).Nodup)
    (hFG : F ≤ G)
    (hpre : ∀ j, j < w.length →
      childOf h ((r :: tr).getD j 0) (cAt w j) F = some (tr.getD j 0))
    (hstored : (h.get (tr.getD (w.length - 1) 0)).map WNode.term = some true) :
    (hend.get (tr.getD (w.length - 1) 0)).map WNode.term = some false ∧
    (hend.get (tr.getD (w.length - 1) 0)).map WNode.meta = some none ∧
    wTrie_findword hend (some r) w G = some (none, some WErr.noSuchWord) := by
  obtain ⟨hP1, hP2, hP3, hP4, hP5, hP6, hP7⟩ :=
    addwordT_master (w ++ u) h r hend res ew tr G hrun (by simp [hw]) hnz hwf hnd
  have hlen : tr.length = w.length + u.length := by simpa using hP1.1
  have hwlen : 1 ≤ w.length := by
    cases w with
    | nil => exact absurd rfl hw
    | cons a b => simp
  have hulen : 1 ≤ u.length := by
    cases u with
    | nil => exact absurd rfl hu
    | cons a b => simp
  obtain ⟨nd, hq, hwc, hmeta, htf, htt⟩ := hP4 (w.length - 1) (by omega)
  have hklt : w.length - 1 < tr.length - 1 := by omega
  have hterm := htf hklt
  refine ⟨by rw [hq]; simp [hterm], by rw [hq]; simp [hmeta], ?_⟩
  apply findword_notterm hend G w (tr.take w.length) r G ?_ ?_ ?_ ?_ ?_
    (le_refl G)
  · intro hx
    have hxl : (tr.take w.length).length = 0 := by rw [hx]; rfl
    rw [List.length_take] at hxl
    omega
  · rw [List.length_take]
    omega
  · intro j hj
    have := hnz j (by simp; omega)
    rwa [cAt_append w u j hj] at this
  · intro j hj
    obtain ⟨x, hx⟩ := hP5 j (by omega)
    rw [cAt_append w u j hj] at hx
    have hnode : ((r :: tr.take w.length).getD j 0) = ((r :: tr).getD j 0) := by
      cases j with
      | zero => rfl
      | succ j => simpa using getD_take tr w.length j (by omega)
    rw [hnode]
    unfold childOf
    rw [hx]
    exact congrArg some (getD_take tr w.length j hj).symm
  · have hlast : (tr.take w.length).getD ((tr.take w.length).length - 1) 0 =
        tr.getD (w.length - 1) 0 := by
      have hlen2 : (tr.take w.length).length = w.length := by
        simp [List.length_take]
        omega
      rw [hlen2]
      exact getD_take tr w.length (w.length - 1) (by omega)
    rw [hlast, hq]
    simp [hterm]

/-- Witness: applying the prefix-clobbering theorem to a trie storing "a"
and the insertion of "ab". -/
theorem c5_addword_clears_prefix_terminal_witness :
    (c5H.get 1).map WNode.term = some false ∧
    (c5H.get 1).map WNode.meta = some none ∧
    wTrie_findword c5H (some 0) [97] 100 = some (none, some WErr.noSuchWord) :=
  c5_addword_clears_prefix_terminal (afterAdd rootH aW) 0 [97] [98] 50 100
    c5H (some 2) none [1, 2] (by decide) (by decide) (by decide)
    (wfH_of_keys _ (by decide)) (by decide) (by decide) (by decide)
    (by decide) (by decide)
